import Mathlib

/-!
# Module list view of 3D Slicer: dependency cascade and registry mirror

Shallow embedding of `Base/QTGUI/qSlicerModulesListView.cxx`.

The view keeps one `QStandardItem` per known module in a `QStandardItemModel`
and mirrors the factory manager's list of modules to ignore into the check
state of the entries.  Two signal connections made by the source drive the
behaviour and are part of the embedding:

* `ModulesListModel.itemChanged(QStandardItem*)` is connected to the slot
  `onItemChanged` (in `qSlicerModulesListViewPrivate::init`);
* `FactoryManager.modulesToIgnoreChanged(QStringList)` is connected to the slot
  `updateModules()` (in `setFactoryManager`).

Both connections are direct (same thread), so a slot runs inside the call that
emits the signal.  Every operation that can emit `itemChanged` takes the slot
as the parameter `itemChanged`; `onItemChanged` closes the recursion with a
fuel counter that bounds the nesting depth of the slot.  The body of
`onItemChanged` removes or adds the direct dependencies or dependents only;
the cascade goes further because each change of the ignore list refreshes the
entries, and a refreshed entry whose check state changes emits `itemChanged`
again.

Behaviour of Qt that the embedding relies on:

* a setter of a `QStandardItem` (`QStandardItem::setData`) emits `itemChanged`
  only when the entry is in a model and the new value differs from the stored
  one;
* `QAbstractItemModel::match` is called by the source without flags, so it
  compares with `Qt::MatchStartsWith | Qt::MatchWrap`, case-insensitively.

The factory manager (`qSlicerAbstractModuleFactoryManager`) is not among the
sources; its state and the operations the view calls are modelled from the
specification and marked as such.

An entry is identified by its row in the model: rows are only appended by the
operations embedded here.
-/

namespace Slicer

/-! ## Qt value types -/

/-- Check state of an entry (`Qt::CheckState`); the view stores `Qt::Unchecked`
and `Qt::Checked` only. -/
inductive CheckState where
  | Unchecked
  | Checked
deriving DecidableEq, Repr

/-- Foreground brush of an entry: the three brushes `updateItem` chooses from.
`default` is `QBrush()`, also the brush of a new `QStandardItem`. -/
inductive Brush where
  | disabledText
  | red
  | default
deriving DecidableEq, Repr

/-- Entry of the list model (`QStandardItem`) with the roles the view reads and
writes.  The icon is left out: it is set with the model's signals blocked and
is read by nothing. -/
structure QStandardItem where
  /-- Value of `data(Qt::UserRole)`: the module name. -/
  userRole : String
  checkable : Bool
  foreground : Brush
  checkState : CheckState
  /-- Value of `Qt::DisplayRole`. -/
  text : String
  toolTip : String
deriving DecidableEq, Repr

/-- Entry made by `new QStandardItem()` followed by
`setData(moduleName, Qt::UserRole)`. -/
def newItem (moduleName : String) : QStandardItem :=
  { userRole := moduleName, checkable := false, foreground := Brush.default,
    checkState := CheckState.Unchecked, text := "", toolTip := "" }

/-- String a `Qt::CheckStateRole` value converts to (`QVariant(int).toString()`):
`Qt::Unchecked` is 0 and `Qt::Checked` is 2. -/
def checkStateRole (item : QStandardItem) : String :=
  match item.checkState with
  | CheckState.Unchecked => "0"
  | CheckState.Checked => "2"

/-- Test `t.startsWith(text, Qt::CaseInsensitive)` of `QString`; case folding is
modelled by `Char.toLower`. -/
def startsWith (t text : String) : Bool :=
  (text.data.map Char.toLower).isPrefixOf (t.data.map Char.toLower)

/-- Rows found by `QAbstractItemModel::match(index(0,0), role, value, hits)`
with the default flags `Qt::MatchStartsWith | Qt::MatchWrap`, for `hits = -1`:
every row, in row order starting at `row`, whose role value converted to a
string starts with `value`, compared case-insensitively.  With `hits = 1` the
search stops at the first of these rows. -/
def matchRows (role : QStandardItem → String) (value : String) :
    List QStandardItem → Nat → List Nat
  | [], _ => []
  | item :: rest, row =>
    if startsWith (role item) value then row :: matchRows role value rest (row + 1)
    else matchRows role value rest (row + 1)

/-! ## Order of `QString` and `QStringList` helpers -/

/-- Lexicographic comparison of two sequences of character codes. -/
def lexLt : List Nat → List Nat → Bool
  | _, [] => false
  | [], _ :: _ => true
  | a :: as, b :: bs => decide (a < b) || (a == b && lexLt as bs)

/-- Character codes of a string. -/
def codes (s : String) : List Nat := s.data.map Char.toNat

/-- Comparison `operator<` of `QString`: lexicographic on the character
codes, case-sensitive. -/
def qStringLt (a b : String) : Bool := lexLt (codes a) (codes b)

/-- Loop of `QStringList::removeDuplicates`: a string already seen is dropped,
so the first occurrence of every string stays, in its place. -/
def removeDuplicatesFrom (seen : List String) : List String → List String
  | [] => []
  | x :: xs =>
    if x ∈ seen then removeDuplicatesFrom seen xs
    else x :: removeDuplicatesFrom (x :: seen) xs

/-- Embedding of `QStringList::removeDuplicates`. -/
def removeDuplicates (l : List String) : List String := removeDuplicatesFrom [] l

/-- Insertion of a string into an ascending list. -/
def insertSorted (x : String) : List String → List String
  | [] => [x]
  | y :: ys => if qStringLt y x then y :: insertSorted x ys else x :: y :: ys

/-- Embedding of `QStringList::sort()` (ascending, case-sensitive).  The result of a
comparison sort under a total order is the same for every algorithm; insertion
sort is used here. -/
def sort : List String → List String
  | [] => []
  | x :: xs => insertSorted x (sort xs)

/-! ## The module registry -/

/-- Module instance (`qSlicerAbstractCoreModule`): the two properties the view
reads. -/
structure qSlicerAbstractCoreModule where
  title : String
  dependencies : List String
deriving DecidableEq, Repr

/-- Modelled from the spec: the state of qSlicerAbstractModuleFactoryManager, the
module registry, whose implementation is not among the sources.  It holds the
registered names, the names to ignore (the ignore set), the names that were
ignored when the modules were registered, the loaded names (present only when
the manager is a `qSlicerModuleFactoryManager`, the target of the
`qobject_cast` in `updateItem`) and the instantiated modules by name. -/
structure qSlicerAbstractModuleFactoryManager where
  registeredModuleNames : List String
  modulesToIgnore : List String
  ignoredModuleNames : List String
  loadedModuleNames : Option (List String)
  instances : List (String × qSlicerAbstractCoreModule)
deriving DecidableEq, Repr

/-- Modelled from the spec: moduleInstance of the registry, which returns the
module's data or nothing when the module is not instantiated. -/
def moduleInstance (fm : qSlicerAbstractModuleFactoryManager) (moduleName : String) :
    Option qSlicerAbstractCoreModule :=
  match fm.instances.find? (fun p => p.1 == moduleName) with
  | some p => some p.2
  | none => none

/-- Declared dependencies of a module as the view reads them:
`module->dependencies()` under the guard `if (module)`; none for a module
without instance. -/
def dependenciesOf (fm : qSlicerAbstractModuleFactoryManager) (moduleName : String) :
    List String :=
  match moduleInstance fm moduleName with
  | some m => m.dependencies
  | none => []

/-- Modelled from the spec: dependentModules of the registry, all registered
modules whose declared dependencies include the name (direct dependents only,
found by scanning the registry). -/
def dependentModules (fm : qSlicerAbstractModuleFactoryManager) (dependency : String) :
    List String :=
  fm.registeredModuleNames.filter (fun m => decide (dependency ∈ dependenciesOf fm m))

/-! ## The view -/

/-- State of the view (`qSlicerModulesListViewPrivate`): the rows of
`ModulesListModel` and the state of the factory manager.  Every operation
below except `modules` dereferences `d->FactoryManager` without a check, so
the state is that of a view whose manager is set. -/
structure qSlicerModulesListViewPrivate where
  ModulesListModel : List QStandardItem
  FactoryManager : qSlicerAbstractModuleFactoryManager
deriving DecidableEq, Repr

/-- Slot connected to `itemChanged(QStandardItem*)`: it runs on the state in
which the signal is emitted, for the row of the changed entry; `none` stands
for a run that does not come back within the fuel. -/
abbrev Slot := qSlicerModulesListViewPrivate → Nat → Option qSlicerModulesListViewPrivate

/-- Embedding of `qSlicerModulesListView::modules`; the argument is the pointer
`d->FactoryManager`, `none` when no manager is set. -/
def modules (factoryManager : Option qSlicerAbstractModuleFactoryManager) : List String :=
  let modules : List String :=
    match factoryManager with
    | some fm => fm.registeredModuleNames ++ fm.modulesToIgnore ++ fm.ignoredModuleNames
    | none => []
  sort (removeDuplicates modules)

/-- Embedding of `qSlicerModulesListViewPrivate::moduleItem`: the row of the first
entry that `match(start, Qt::UserRole, moduleName)` finds, `none` for the null
pointer. -/
def moduleItem (model : List QStandardItem) (moduleName : String) : Option Nat :=
  (matchRows QStandardItem.userRole moduleName model 0).head?

/-- Embedding of `qSlicerModulesListViewPrivate::indexListToModules`: the
`Qt::DisplayRole` value of each index. -/
def indexListToModules (model : List QStandardItem) (indexes : List Nat) : List String :=
  indexes.filterMap (fun row => (model[row]?).map QStandardItem.text)

/-- Embedding of `qSlicerModulesListView::checkedModules`. -/
def checkedModules (d : qSlicerModulesListViewPrivate) : List String :=
  indexListToModules d.ModulesListModel (matchRows checkStateRole "2" d.ModulesListModel 0)

/-- Embedding of `qSlicerModulesListView::uncheckedModules`. -/
def uncheckedModules (d : qSlicerModulesListViewPrivate) : List String :=
  indexListToModules d.ModulesListModel (matchRows checkStateRole "0" d.ModulesListModel 0)

/-- Brush chosen by `updateItem` for a module name. -/
def foregroundOf (fm : qSlicerAbstractModuleFactoryManager) (moduleName : String) : Brush :=
  if moduleName ∈ fm.ignoredModuleNames then Brush.disabledText
  else
    match fm.loadedModuleNames with
    | some loaded => if moduleName ∈ loaded then Brush.default else Brush.red
    | none => Brush.default

/-- Check state chosen by `updateItem` for a module name. -/
def checkStateOf (fm : qSlicerAbstractModuleFactoryManager) (moduleName : String) : CheckState :=
  if moduleName ∈ fm.modulesToIgnore then CheckState.Unchecked else CheckState.Checked

/-- Text chosen by `updateItem` for a module name. -/
def textOf (fm : qSlicerAbstractModuleFactoryManager) (moduleName : String) : String :=
  match moduleInstance fm moduleName with
  | some coreModule => coreModule.title
  | none => moduleName

/-- Tool tip chosen by `updateItem` for a module name. -/
def toolTipOf (fm : qSlicerAbstractModuleFactoryManager) (moduleName : String) : String :=
  match moduleInstance fm moduleName with
  | some coreModule =>
    if coreModule.dependencies.length > 0 then
      moduleName ++ "(" ++ ", ".intercalate coreModule.dependencies ++ ")"
    else moduleName
  | none => moduleName

/-- Setter of a `QStandardItem` that is in the model (`setCheckable`,
`setForeground`, `setCheckState`, `setText`, `setToolTip`, all through
`QStandardItem::setData`): when the value differs from the stored one it is
stored and the model emits `itemChanged` for the entry, which runs the slot
before the setter returns. -/
def setItemData (itemChanged : Slot) (d : qSlicerModulesListViewPrivate) (row : Nat)
    (value : QStandardItem → QStandardItem) : Option qSlicerModulesListViewPrivate :=
  match d.ModulesListModel[row]? with
  | none => none
  | some item =>
    if value item = item then some d
    else itemChanged { d with ModulesListModel := d.ModulesListModel.set row (value item) } row

/-- Embedding of `qSlicerModulesListViewPrivate::updateItem` for an entry of the
model.  The module name is read once; the brush and the check state are computed
from the manager as the slots run by the earlier setters left it; the text and
the tool tip are both computed after `setCheckState` and before `setText`. -/
def updateItem (itemChanged : Slot) (d : qSlicerModulesListViewPrivate) (row : Nat) :
    Option qSlicerModulesListViewPrivate :=
  match d.ModulesListModel[row]? with
  | none => none
  | some item =>
    let moduleName := item.userRole
    (setItemData itemChanged d row (fun i => { i with checkable := true })).bind fun d =>
    (setItemData itemChanged d row
      (fun i => { i with foreground := foregroundOf d.FactoryManager moduleName })).bind fun d =>
    (setItemData itemChanged d row
      (fun i => { i with checkState := checkStateOf d.FactoryManager moduleName })).bind fun d =>
    let text := textOf d.FactoryManager moduleName
    let tooltip := toolTipOf d.FactoryManager moduleName
    (setItemData itemChanged d row (fun i => { i with text := text })).bind fun d =>
    setItemData itemChanged d row (fun i => { i with toolTip := tooltip })

/-- Result of `updateItem` on an entry that is not in a model (the new entry of
`addModule`): no signal is emitted, every role is set from the manager. -/
def refreshed (fm : qSlicerAbstractModuleFactoryManager) (item : QStandardItem) : QStandardItem :=
  { item with
    checkable := true
    foreground := foregroundOf fm item.userRole
    checkState := checkStateOf fm item.userRole
    text := textOf fm item.userRole
    toolTip := toolTipOf fm item.userRole }

/-- Embedding of `qSlicerModulesListView::addModule`: the new entry is filled by
`updateItem` before `appendRow` puts it into the model. -/
def addModule (d : qSlicerModulesListViewPrivate) (moduleName : String) :
    qSlicerModulesListViewPrivate :=
  { d with ModulesListModel :=
      d.ModulesListModel ++ [refreshed d.FactoryManager (newItem moduleName)] }

/-- Embedding of `qSlicerModulesListView::updateModule`. -/
def updateModule (itemChanged : Slot) (d : qSlicerModulesListViewPrivate)
    (moduleName : String) : Option qSlicerModulesListViewPrivate :=
  match moduleItem d.ModulesListModel moduleName with
  | none => some (addModule d moduleName)
  | some row => updateItem itemChanged d row

/-- Embedding of `qSlicerModulesListView::updateModules(const QStringList&)`. -/
def updateModulesOf (itemChanged : Slot) (d : qSlicerModulesListViewPrivate) :
    List String → Option qSlicerModulesListViewPrivate
  | [] => some d
  | moduleName :: rest =>
    (updateModule itemChanged d moduleName).bind fun d => updateModulesOf itemChanged d rest

/-- Embedding of `qSlicerModulesListView::updateModules()`. -/
def updateModules (itemChanged : Slot) (d : qSlicerModulesListViewPrivate) :
    Option qSlicerModulesListViewPrivate :=
  updateModulesOf itemChanged d (modules (some d.FactoryManager))

/-- Modelled from the spec: setModulesToIgnore of the registry.  A list equal to
the stored one changes nothing; otherwise it is stored and the notification
`modulesToIgnoreChanged` is delivered synchronously, which runs the connected
slot `updateModules()`. -/
def setModulesToIgnore (itemChanged : Slot) (d : qSlicerModulesListViewPrivate)
    (moduleNames : List String) : Option qSlicerModulesListViewPrivate :=
  if moduleNames = d.FactoryManager.modulesToIgnore then some d
  else
    updateModules itemChanged
      { d with FactoryManager := { d.FactoryManager with modulesToIgnore := moduleNames } }

/-- Modelled from the spec: addModuleToIgnore of the registry, which puts the
name into the ignore set; a name already in it changes nothing and notifies
nobody. -/
def addModuleToIgnore (itemChanged : Slot) (d : qSlicerModulesListViewPrivate)
    (moduleName : String) : Option qSlicerModulesListViewPrivate :=
  if moduleName ∈ d.FactoryManager.modulesToIgnore then some d
  else setModulesToIgnore itemChanged d (d.FactoryManager.modulesToIgnore ++ [moduleName])

/-- Modelled from the spec: removeModuleToIgnore of the registry, which takes the
name out of the ignore set; a name not in it changes nothing and notifies
nobody. -/
def removeModuleToIgnore (itemChanged : Slot) (d : qSlicerModulesListViewPrivate)
    (moduleName : String) : Option qSlicerModulesListViewPrivate :=
  setModulesToIgnore itemChanged d
    (d.FactoryManager.modulesToIgnore.filter (fun m => decide (m ≠ moduleName)))

/-- Loop `foreach(dependency, module->dependencies())` of `onItemChanged`. -/
def removeModulesToIgnore (itemChanged : Slot) (d : qSlicerModulesListViewPrivate) :
    List String → Option qSlicerModulesListViewPrivate
  | [] => some d
  | dependency :: rest =>
    (removeModuleToIgnore itemChanged d dependency).bind fun d =>
      removeModulesToIgnore itemChanged d rest

/-- Loop `foreach(dependentModule, dependentModules(moduleName))` of
`onItemChanged`. -/
def addModulesToIgnore (itemChanged : Slot) (d : qSlicerModulesListViewPrivate) :
    List String → Option qSlicerModulesListViewPrivate
  | [] => some d
  | dependentModule :: rest =>
    (addModuleToIgnore itemChanged d dependentModule).bind fun d =>
      addModulesToIgnore itemChanged d rest

/-- Body of `qSlicerModulesListView::onItemChanged` for the entry at `row`; the
slot `itemChanged` serves the signals emitted while the body runs. -/
def onItemChangedBody (itemChanged : Slot) (d : qSlicerModulesListViewPrivate) (row : Nat) :
    Option qSlicerModulesListViewPrivate :=
  match d.ModulesListModel[row]? with
  | none => none
  | some item =>
    let moduleName := item.userRole
    let module := moduleInstance d.FactoryManager moduleName
    if item.checkState = CheckState.Checked then
      (removeModuleToIgnore itemChanged d moduleName).bind fun d =>
        match module with
        | some m => removeModulesToIgnore itemChanged d m.dependencies
        | none => some d
    else
      (addModuleToIgnore itemChanged d moduleName).bind fun d =>
        match module with
        | some _ => addModulesToIgnore itemChanged d (dependentModules d.FactoryManager moduleName)
        | none => some d

/-- Embedding of `qSlicerModulesListView::onItemChanged`, the slot of `itemChanged`.
The fuel bounds the nesting depth of the slot. -/
def onItemChanged : Nat → Slot
  | 0 => fun _ _ => none
  | fuel + 1 => onItemChangedBody (onItemChanged fuel)

/-- Embedding of the loop of `qSlicerModulesListViewPrivate::setModulesCheckState`
over its last argument, the value of `q->modules()` taken when the loop starts. -/
def setModulesCheckStateOf (itemChanged : Slot) (moduleNames : List String)
    (checkState : CheckState) (d : qSlicerModulesListViewPrivate) :
    List String → Option qSlicerModulesListViewPrivate
  | [] => some d
  | moduleName :: rest =>
    match moduleItem d.ModulesListModel moduleName with
    | none => setModulesCheckStateOf itemChanged moduleNames checkState d rest
    | some row =>
      (setItemData itemChanged d row (fun i =>
        { i with checkState :=
            if moduleName ∈ moduleNames then checkState
            else if checkState = CheckState.Checked then CheckState.Unchecked
            else CheckState.Checked })).bind fun d =>
        setModulesCheckStateOf itemChanged moduleNames checkState d rest

/-- Embedding of `qSlicerModulesListViewPrivate::setModulesCheckState`. -/
def setModulesCheckState (itemChanged : Slot) (d : qSlicerModulesListViewPrivate)
    (moduleNames : List String) (checkState : CheckState) :
    Option qSlicerModulesListViewPrivate :=
  setModulesCheckStateOf itemChanged moduleNames checkState d (modules (some d.FactoryManager))

/-- Embedding of `qSlicerModulesListView::setCheckedModules`. -/
def setCheckedModules (itemChanged : Slot) (d : qSlicerModulesListViewPrivate)
    (moduleNames : List String) : Option qSlicerModulesListViewPrivate :=
  setModulesCheckState itemChanged d moduleNames CheckState.Checked

/-- Embedding of `qSlicerModulesListView::setUncheckedModules`. -/
def setUncheckedModules (itemChanged : Slot) (d : qSlicerModulesListViewPrivate)
    (moduleNames : List String) : Option qSlicerModulesListViewPrivate :=
  setModulesCheckState itemChanged d moduleNames CheckState.Unchecked

/-! ## Vocabulary of the verification

States, predicates and example inputs used by the theorems below. -/

/-- Registry with another ignore set. -/
def withIgnore (fm : qSlicerAbstractModuleFactoryManager) (S : List String) :
    qSlicerAbstractModuleFactoryManager :=
  { fm with modulesToIgnore := S }

/-- Every entry is the one `moduleItem` finds under the entry's own name: no entry
above it has a name that starts, case-insensitively, with that name. -/
def Addressable (model : List QStandardItem) : Prop :=
  ∀ p ∈ model.enum, moduleItem model p.2.userRole = some p.1

instance (model : List QStandardItem) : Decidable (Addressable model) := by
  unfold Addressable; infer_instance

/-- Names the registry knows: what `modules` collects before it removes the
duplicates and sorts. -/
def knownNames (fm : qSlicerAbstractModuleFactoryManager) : List String :=
  fm.registeredModuleNames ++ fm.modulesToIgnore ++ fm.ignoredModuleNames

/-- The registry has seen the name when it registered the modules: the name is
registered or ignored. -/
def Listed (fm : qSlicerAbstractModuleFactoryManager) (n : String) : Prop :=
  n ∈ fm.registeredModuleNames ∨ n ∈ fm.ignoredModuleNames

/-- Check state that the entry of the name `n` shows: unchecked for a name of the
ignore set `S`, and `σ n` otherwise. -/
def shownState (S : List String) (σ : String → CheckState) (n : String) : CheckState :=
  if n ∈ S then CheckState.Unchecked else σ n

/-- Entry with the brush, text and tool tip that `updateItem` writes and the check
state given by `S` and `σ`. -/
def entryOf (fm : qSlicerAbstractModuleFactoryManager) (S : List String)
    (σ : String → CheckState) (it : QStandardItem) : QStandardItem :=
  { refreshed fm it with checkState := shownState S σ it.userRole }

/-- State in which the registry holds the ignore set `S` and the entries are those
of `M` with the check states given by `S` and `σ`. -/
def viewState (M : List QStandardItem) (fm : qSlicerAbstractModuleFactoryManager)
    (S : List String) (σ : String → CheckState) : qSlicerModulesListViewPrivate :=
  { ModulesListModel := M.map (entryOf fm S σ), FactoryManager := withIgnore fm S }

/-- Number of unchecked entries: the bound on the nesting of an enable request. -/
def uncheckedEntries (M : List QStandardItem) (S : List String) (σ : String → CheckState) :
    Nat :=
  (M.filter (fun it => decide (shownState S σ it.userRole = CheckState.Unchecked))).length

/-- Module `a` declares the dependency `b`. -/
def DependsOn (fm : qSlicerAbstractModuleFactoryManager) (a b : String) : Prop :=
  b ∈ dependenciesOf fm a

/-- Module `b` is in the transitive closure of the dependency relation from `a`,
`a` included. -/
def Reaches (fm : qSlicerAbstractModuleFactoryManager) : String → String → Prop :=
  Relation.ReflTransGen (DependsOn fm)

/-- The entries can be found by name and every registered or ignored name has
one. -/
structure Covered (M : List QStandardItem) (fm : qSlicerAbstractModuleFactoryManager) :
    Prop where
  addressable : Addressable M
  known : ∀ n, Listed fm n → n ∈ M.map QStandardItem.userRole

/-- What a stretch of an enable cascade makes of the ignore set `S` and of the check
states `σ`: names only leave the ignore set, each of them reached from a name of
`root`; checked entries stay checked; the entry of a registered or ignored name that
left the set is checked; an entry that became checked has its dependencies out of
the set; entries outside `visit` keep their state. -/
structure EnableStep (M : List QStandardItem) (fm : qSlicerAbstractModuleFactoryManager)
    (S : List String) (σ : String → CheckState) (S' : List String) (σ' : String → CheckState)
    (root visit : String → Prop) : Prop where
  sub : S'.Sublist S
  measure : uncheckedEntries M S' σ' ≤ uncheckedEntries M S σ
  keep : ∀ n, n ∉ S → σ n = CheckState.Checked → σ' n = CheckState.Checked
  removedChecked : ∀ m ∈ S, m ∉ S' → Listed fm m → σ' m = CheckState.Checked
  frame : ∀ m ∈ S, m ∉ S' → ∃ n, root n ∧ Reaches fm n m
  fresh : ∀ m, m ∉ S' → σ' m = CheckState.Checked →
    (m ∉ S ∧ σ m = CheckState.Checked) ∨ ∀ x ∈ dependenciesOf fm m, x ∉ S'
  still : ∀ n, n ∉ S → ¬ visit n → σ' n = σ n

/-- What an enable request for `X` makes of the ignore set `S` and of the check
states `σ`. -/
structure EnablePost (M : List QStandardItem) (fm : qSlicerAbstractModuleFactoryManager)
    (S : List String) (σ : String → CheckState) (S' : List String) (σ' : String → CheckState)
    (X : String) : Prop where
  step : EnableStep M fm S σ S' σ'
    (fun n => n = X ∨ (Listed fm n ∧ n ∉ S ∧ σ n = CheckState.Unchecked)) (Listed fm)
  deps : ∀ x ∈ dependenciesOf fm X, x ∉ S'

/-- The slot serves an enable request on every view state with fewer than `k`
unchecked entries. -/
def EnableSlot (slot : Slot) (M : List QStandardItem) (fm : qSlicerAbstractModuleFactoryManager)
    (k : Nat) : Prop :=
  ∀ (S : List String) (σ : String → CheckState) (r : Nat) (item0 : QStandardItem),
    M[r]? = some item0 → item0.userRole ∉ S → σ item0.userRole = CheckState.Checked →
    (∀ m ∈ S, m ∈ M.map QStandardItem.userRole) → uncheckedEntries M S σ < k →
    ∃ S' σ', slot (viewState M fm S σ) r = some (viewState M fm S' σ') ∧
      EnablePost M fm S σ S' σ' item0.userRole

/-- The entry of every registered or ignored name that is not in the ignore set is
checked. -/
def Settled (fm : qSlicerAbstractModuleFactoryManager) (S : List String)
    (σ : String → CheckState) : Prop :=
  ∀ n, Listed fm n → n ∉ S → σ n = CheckState.Checked

/-- State in which the entries are those of the view state except that the check
state of row `r` has just been set to `c`: the state in which `itemChanged` reaches
`onItemChanged` after a click on the check box of that row. -/
def toggledState (M : List QStandardItem) (fm : qSlicerAbstractModuleFactoryManager)
    (S : List String) (σ : String → CheckState) (r : Nat) (item0 : QStandardItem)
    (c : CheckState) : qSlicerModulesListViewPrivate :=
  { ModulesListModel := (viewState M fm S σ).ModulesListModel.set r
      { entryOf fm S σ item0 with checkState := c }
    FactoryManager := withIgnore fm S }

/-- What an enable request for `X` makes of a view whose entries of registered and
ignored names are up to date. -/
structure EnableResult (fm : qSlicerAbstractModuleFactoryManager) (S : List String)
    (σ : String → CheckState) (S' : List String) (σ' : String → CheckState) (X : String) :
    Prop where
  sub : S'.Sublist S
  self : X ∉ S'
  frame : ∀ m ∈ S, m ∉ S' → Reaches fm X m
  closedSelf : ∀ x ∈ dependenciesOf fm X, x ∉ S'
  closed : ∀ m ∈ S, m ∉ S' → Listed fm m → ∀ x ∈ dependenciesOf fm m, x ∉ S'
  settled : Settled fm S' σ'
  checked : σ' X = CheckState.Checked
  keep : ∀ n, n ∉ S → σ n = CheckState.Checked → σ' n = CheckState.Checked
  still : ∀ n, n ∉ S → ¬ Listed fm n → n ≠ X → σ' n = σ n

/-- Number of entries whose module is not in the ignore set: the bound on the
nesting of a disable request. -/
def enabledEntries (M : List QStandardItem) (S : List String) : Nat :=
  (M.filter (fun it => decide (it.userRole ∉ S))).length

/-- What a disable request for `X` makes of the ignore set `S`. -/
structure DisablePost (fm : qSlicerAbstractModuleFactoryManager) (S S' : List String)
    (X : String) : Prop where
  sup : ∀ m ∈ S, m ∈ S'
  self : X ∈ S'
  grown : ∀ m ∈ S', m ∈ S ∨ m = X ∨ m ∈ fm.registeredModuleNames
  frame : ∀ m ∈ S', m ∉ S → Reaches fm m X
  closed : ∀ m, (m = X ∨ (m ∈ S' ∧ m ∉ S)) → (m = X → moduleInstance fm X ≠ none) →
    ∀ q ∈ dependentModules fm m, q ∈ S'

/-- The slot serves a disable request on every view state with fewer than `k`
entries of enabled modules whose entries of registered and ignored names are up to
date. -/
def DisableSlot (slot : Slot) (M : List QStandardItem) (fm : qSlicerAbstractModuleFactoryManager)
    (k : Nat) : Prop :=
  ∀ (S : List String) (σ : String → CheckState) (r : Nat) (item0 : QStandardItem),
    M[r]? = some item0 → item0.userRole ∈ S → Settled fm S σ →
    (∀ m ∈ S, m ∈ M.map QStandardItem.userRole) → enabledEntries M S < k →
    ∃ S', slot (viewState M fm S σ) r = some (viewState M fm S' σ) ∧
      DisablePost fm S S' item0.userRole

/-- State in which the registry holds the ignore set `S1` and the entries still
show `S`: the state in which `modulesToIgnoreChanged` is delivered. -/
def staleView (M : List QStandardItem) (fm : qSlicerAbstractModuleFactoryManager)
    (S : List String) (σ : String → CheckState) (S1 : List String) :
    qSlicerModulesListViewPrivate :=
  { ModulesListModel := (viewState M fm S σ).ModulesListModel, FactoryManager := withIgnore fm S1 }

/-- Ignore set after `addModuleToIgnore` of a name. -/
def ignoreWith (S : List String) (x : String) : List String :=
  if x ∈ S then S else S ++ [x]

/-- The entry is up to date: it has the brush, the text and the tool tip that
`updateItem` writes for it, and if the registry knows its name it also has the
check state that `updateItem` writes for it. -/
def UpToDate (fm : qSlicerAbstractModuleFactoryManager) (item : QStandardItem) : Prop :=
  { refreshed fm item with checkState := item.checkState } = item ∧
  (item.userRole ∈ knownNames fm → item.checkState = checkStateOf fm item.userRole)

/-- The view is reconciled with the registry: every entry is found under its own
name, every name the registry knows has an entry, and every entry is up to
date. -/
def Reconciled (d : qSlicerModulesListViewPrivate) : Prop :=
  Addressable d.ModulesListModel ∧
  (∀ n ∈ knownNames d.FactoryManager, n ∈ d.ModulesListModel.map QStandardItem.userRole) ∧
  ∀ item ∈ d.ModulesListModel, UpToDate d.FactoryManager item

/-- Every instantiated module is a registered module. -/
def InstancesRegistered (fm : qSlicerAbstractModuleFactoryManager) : Prop :=
  ∀ p ∈ fm.instances, p.1 ∈ fm.registeredModuleNames

/-- The dependency invariant for the ignore set `S`: every declared dependency of
an instantiated module outside `S` is outside `S` (a module without instance
declares no dependency). -/
def ConsistentWith (fm : qSlicerAbstractModuleFactoryManager) (S : List String) : Prop :=
  ∀ p ∈ fm.instances, p.1 ∉ S → ∀ x ∈ dependenciesOf fm p.1, x ∉ S

/-- The dependency invariant of a registry: every declared dependency of an
enabled module is enabled, where enabled means absent from the ignore set. -/
def Consistent (fm : qSlicerAbstractModuleFactoryManager) : Prop :=
  ConsistentWith fm fm.modulesToIgnore

/-- State in which `itemChanged` reaches `onItemChanged` after the check state of
the entry in row `row` was set to `c` (a click on its check box). -/
def clicked (d : qSlicerModulesListViewPrivate) (row : Nat) (c : CheckState) :
    qSlicerModulesListViewPrivate :=
  match d.ModulesListModel[row]? with
  | some item =>
    { d with ModulesListModel := d.ModulesListModel.set row { item with checkState := c } }
  | none => d

/-- Check state of the entry that `moduleItem` finds for a name; checked if it
finds none. -/
def shownIn (model : List QStandardItem) (n : String) : CheckState :=
  match (moduleItem model n).bind (fun row => model[row]?) with
  | some item => item.checkState
  | none => CheckState.Checked

instance (fm : qSlicerAbstractModuleFactoryManager) (item : QStandardItem) :
    Decidable (UpToDate fm item) := by
  unfold UpToDate; infer_instance

instance (d : qSlicerModulesListViewPrivate) : Decidable (Reconciled d) := by
  unfold Reconciled; infer_instance

instance (fm : qSlicerAbstractModuleFactoryManager) : Decidable (InstancesRegistered fm) := by
  unfold InstancesRegistered; infer_instance

instance (fm : qSlicerAbstractModuleFactoryManager) (S : List String) :
    Decidable (ConsistentWith fm S) := by
  unfold ConsistentWith; infer_instance

instance (fm : qSlicerAbstractModuleFactoryManager) : Decidable (Consistent fm) := by
  unfold Consistent; infer_instance

/-- View with one entry per known name of a registry, in the order of `modules`,
each entry as `addModule` makes it. -/
def viewOf (fm : qSlicerAbstractModuleFactoryManager) : qSlicerModulesListViewPrivate :=
  { ModulesListModel := (modules (some fm)).map (fun n => refreshed fm (newItem n))
    FactoryManager := fm }

/-- Registry of the chain A depends on B, B depends on C, with a given ignore set. -/
def chainRegistry (ignore : List String) : qSlicerAbstractModuleFactoryManager :=
  { registeredModuleNames := ["A", "B", "C"]
    modulesToIgnore := ignore
    ignoredModuleNames := []
    loadedModuleNames := some ["A", "B", "C"]
    instances := [("A", ⟨"A", ["B"]⟩), ("B", ⟨"B", ["C"]⟩), ("C", ⟨"C", []⟩)] }

/-- Registry in which the instantiated module A depends on the registered module
X, which has no instance. -/
def strandedRegistry : qSlicerAbstractModuleFactoryManager :=
  { registeredModuleNames := ["A", "X"]
    modulesToIgnore := []
    ignoredModuleNames := []
    loadedModuleNames := none
    instances := [("A", ⟨"A", ["X"]⟩)] }

/-- Registry of the scenario Core, Filter (depends on Core), Viewer (depends on
Filter), with a given ignore set. -/
def scenarioRegistry (ignore : List String) : qSlicerAbstractModuleFactoryManager :=
  { registeredModuleNames := ["Core", "Filter", "Viewer"]
    modulesToIgnore := ignore
    ignoredModuleNames := []
    loadedModuleNames := some ["Core", "Filter", "Viewer"]
    instances := [("Core", ⟨"Core", []⟩), ("Filter", ⟨"Filter", ["Core"]⟩),
      ("Viewer", ⟨"Viewer", ["Filter"]⟩)] }

/-- View with an entry for the registered module A and an entry named `ghost`,
a name the registry does not know. -/
def ghostView : qSlicerModulesListViewPrivate :=
  { ModulesListModel :=
      [refreshed (chainRegistry []) (newItem "A"), refreshed (chainRegistry []) (newItem "B"),
       refreshed (chainRegistry []) (newItem "C"), refreshed (chainRegistry []) (newItem "ghost")]
    FactoryManager := chainRegistry [] }

/-- Registry in which A depends on B, X has no dependency, and B and X are to
ignore while A is not. -/
def staleRegistry : qSlicerAbstractModuleFactoryManager :=
  { registeredModuleNames := ["A", "B", "X"]
    modulesToIgnore := ["B", "X"]
    ignoredModuleNames := []
    loadedModuleNames := some ["A", "B", "X"]
    instances := [("A", ⟨"A", ["B"]⟩), ("B", ⟨"B", []⟩), ("X", ⟨"X", []⟩)] }

/-- View of that registry in which the entry of B is shown checked although B is
to ignore: the view is not reconciled with the registry. -/
def staleBView : qSlicerModulesListViewPrivate :=
  clicked (viewOf staleRegistry) 1 CheckState.Checked

/-- Registry with one module whose title differs from its name. -/
def titledRegistry : qSlicerAbstractModuleFactoryManager :=
  { registeredModuleNames := ["VolumeRendering"]
    modulesToIgnore := []
    ignoredModuleNames := []
    loadedModuleNames := some ["VolumeRendering"]
    instances := [("VolumeRendering", ⟨"Volume Rendering", []⟩)] }

/-- Registry of the two modules Data and DataProbe, neither instantiated. -/
def probeRegistry : qSlicerAbstractModuleFactoryManager :=
  { registeredModuleNames := ["Data", "DataProbe"]
    modulesToIgnore := []
    ignoredModuleNames := []
    loadedModuleNames := none
    instances := [] }

/-- View of `probeRegistry` that holds the entry of DataProbe only. -/
def probeView : qSlicerModulesListViewPrivate :=
  { ModulesListModel := [refreshed probeRegistry (newItem "DataProbe")]
    FactoryManager := probeRegistry }

/-- Check state that `setModulesCheckState` gives to the entry of a module name:
the requested state for a member of `moduleNames`, the other state for the
rest. -/
def targetState (moduleNames : List String) (checkState : CheckState) (moduleName : String) :
    CheckState :=
  if moduleName ∈ moduleNames then checkState
  else if checkState = CheckState.Checked then CheckState.Unchecked
  else CheckState.Checked

/-- Number of the roles checkable, foreground, text and tool tip in which the entry
`e` differs from what `updateItem` writes for the name `n`. -/
def staleFields (fm : qSlicerAbstractModuleFactoryManager) (n : String) (e : QStandardItem) :
    Nat :=
  (if e.checkable = true then 0 else 1) + (if e.foreground = foregroundOf fm n then 0 else 1)
    + (if e.text = textOf fm n then 0 else 1) + (if e.toolTip = toolTipOf fm n then 0 else 1)

/-- Every role among checkable, foreground, text and tool tip that `updateItem`
would leave as it is in `e` is the same in `e'`. -/
def DisplayKept (fm : qSlicerAbstractModuleFactoryManager) (n : String)
    (e e' : QStandardItem) : Prop :=
  (e.checkable = true → e'.checkable = true) ∧
  (e.foreground = foregroundOf fm n → e'.foreground = foregroundOf fm n) ∧
  (e.text = textOf fm n → e'.text = textOf fm n) ∧
  (e.toolTip = toolTipOf fm n → e'.toolTip = toolTipOf fm n)

/-- Number of changes the entry of `n` can still undergo during a disable cascade. -/
def disableWeight (fm : qSlicerAbstractModuleFactoryManager) (ε : String → QStandardItem)
    (n : String) : Nat :=
  staleFields fm n (ε n) + (if (ε n).checkState = CheckState.Checked then 1 else 0)

/-- Bound on the nesting of a disable request: the changes the entries can still
undergo. -/
def disablePending (M : List QStandardItem) (fm : qSlicerAbstractModuleFactoryManager)
    (ε : String → QStandardItem) : Nat :=
  (M.map (fun it => disableWeight fm ε it.userRole)).sum

/-- What a stretch of a disable cascade makes of the ignore set `S` and of the
entries `ε`: names only enter the ignore set, each of them the name of an entry;
unchecked entries stay unchecked and roles that are up to date stay so; the entries
of the names outside the new set are as before. -/
structure DisableStretch (M : List QStandardItem) (fm : qSlicerAbstractModuleFactoryManager)
    (S : List String) (ε : String → QStandardItem) (S' : List String)
    (ε' : String → QStandardItem) : Prop where
  sup : ∀ m ∈ S, m ∈ S'
  measure : disablePending M fm ε' ≤ disablePending M fm ε
  keep : ∀ n, (ε n).checkState = CheckState.Unchecked →
    (ε' n).checkState = CheckState.Unchecked
  kept : ∀ n, DisplayKept fm n (ε n) (ε' n)
  outStill : ∀ n, n ∉ S' → ε' n = ε n
  covered : ∀ m ∈ S', m ∈ S ∨ m ∈ M.map QStandardItem.userRole

theorem refreshed_userRole (fm : qSlicerAbstractModuleFactoryManager) (it : QStandardItem) :
    (refreshed fm it).userRole = it.userRole := rfl

theorem matchRows_userRole_map (v : String) (l1 l2 : List QStandardItem) (r : Nat)
    (h : l1.map QStandardItem.userRole = l2.map QStandardItem.userRole) :
    matchRows QStandardItem.userRole v l1 r = matchRows QStandardItem.userRole v l2 r := by
  induction l1 generalizing l2 r with
  | nil => cases l2 with
    | nil => rfl
    | cons b l2 => simp at h
  | cons a l1 ih => cases l2 with
    | nil => simp at h
    | cons b l2 =>
      simp only [List.map_cons, List.cons.injEq] at h
      simp only [matchRows, h.1, ih l2 (r + 1) h.2]

theorem moduleItem_congr (l1 l2 : List QStandardItem) (n : String)
    (h : l1.map QStandardItem.userRole = l2.map QStandardItem.userRole) :
    moduleItem l1 n = moduleItem l2 n := by
  simp only [moduleItem, matchRows_userRole_map n l1 l2 0 h]

theorem Addressable.row {model : List QStandardItem} (ha : Addressable model) (row : Nat)
    (item : QStandardItem) (h : model[row]? = some item) :
    moduleItem model item.userRole = some row :=
  ha (row, item) (List.mem_enum_iff_getElem?.mpr h)

theorem Addressable.congr {l1 l2 : List QStandardItem}
    (h : l1.map QStandardItem.userRole = l2.map QStandardItem.userRole) (ha : Addressable l1) :
    Addressable l2 := by
  intro p hp
  have hg : l2[p.1]? = some p.2 := List.mem_enum_iff_getElem?.mp hp
  have e2 : (l2.map QStandardItem.userRole)[p.1]? = some p.2.userRole := by
    simp [hg]
  rw [← h] at e2
  obtain ⟨it1, h1, hname⟩ : ∃ it1, l1[p.1]? = some it1 ∧ it1.userRole = p.2.userRole := by
    simpa using e2
  rw [← moduleItem_congr l1 l2 _ h, ← hname]
  exact ha.row p.1 it1 h1

theorem Addressable.row_unique {model : List QStandardItem} (ha : Addressable model)
    {r r' : Nat} {a b : QStandardItem} (h1 : model[r]? = some a) (h2 : model[r']? = some b)
    (hn : a.userRole = b.userRole) : r = r' := by
  have e1 := ha.row r a h1
  have e2 := ha.row r' b h2
  rw [hn, e2] at e1
  exact (Option.some.inj e1).symm

theorem Addressable.find {model : List QStandardItem} (ha : Addressable model) {n : String}
    (hn : n ∈ model.map QStandardItem.userRole) :
    ∃ row item, moduleItem model n = some row ∧ model[row]? = some item ∧ item.userRole = n := by
  obtain ⟨item, hmem, hname⟩ := List.mem_map.mp hn
  obtain ⟨row, hrow⟩ := List.getElem?_of_mem hmem
  exact ⟨row, item, hname ▸ ha.row row item hrow, hrow, hname⟩

/-! ## Order of strings, `removeDuplicates` and `sort` -/

theorem lexLt_irrefl (a : List Nat) : lexLt a a = false := by
  induction a with
  | nil => rfl
  | cons x xs ih => simp [lexLt, ih]

theorem lexLt_trans {a b c : List Nat} (h1 : lexLt a b = true) (h2 : lexLt b c = true) :
    lexLt a c = true := by
  induction a generalizing b c with
  | nil =>
    cases c with
    | nil => cases b <;> simp [lexLt] at h2
    | cons z zs => rfl
  | cons x xs ih =>
    cases b with
    | nil => simp [lexLt] at h1
    | cons y ys =>
      cases c with
      | nil => simp [lexLt] at h2
      | cons z zs =>
        simp only [lexLt, Bool.or_eq_true, decide_eq_true_eq, Bool.and_eq_true, beq_iff_eq] at h1 h2 ⊢
        rcases h1 with h1 | ⟨h1, h1'⟩
        · rcases h2 with h2 | ⟨h2, _⟩
          · exact Or.inl (by omega)
          · exact Or.inl (by omega)
        · rcases h2 with h2 | ⟨h2, h2'⟩
          · exact Or.inl (by omega)
          · exact Or.inr ⟨by omega, ih h1' h2'⟩

theorem lexLt_total {a b : List Nat} (h1 : lexLt a b = false) (h2 : lexLt b a = false) : a = b := by
  induction a generalizing b with
  | nil =>
    cases b with
    | nil => rfl
    | cons y ys => simp [lexLt] at h1
  | cons x xs ih =>
    cases b with
    | nil => simp [lexLt] at h2
    | cons y ys =>
      simp only [lexLt, Bool.or_eq_false_iff, decide_eq_false_iff_not, Bool.and_eq_false_imp,
        beq_iff_eq] at h1 h2
      have hxy : x = y := by omega
      subst hxy
      rw [ih (h1.2 rfl) (h2.2 rfl)]

theorem codes_injective {a b : String} (h : codes a = codes b) : a = b := by
  have hinj : Function.Injective Char.toNat := by
    intro c1 c2 hc
    have := congrArg Char.ofNat hc
    simpa using this
  exact String.ext (List.map_injective_iff.mpr hinj h)

theorem qStringLt_irrefl (a : String) : qStringLt a a = false := lexLt_irrefl _

theorem qStringLt_trans {a b c : String} (h1 : qStringLt a b = true) (h2 : qStringLt b c = true) :
    qStringLt a c = true := lexLt_trans h1 h2

theorem qStringLt_total {a b : String} (h1 : qStringLt a b = false) (h2 : qStringLt b a = false) :
    a = b := codes_injective (lexLt_total h1 h2)

theorem mem_removeDuplicatesFrom (seen l : List String) (x : String) :
    x ∈ removeDuplicatesFrom seen l ↔ x ∈ l ∧ x ∉ seen := by
  induction l generalizing seen with
  | nil => simp [removeDuplicatesFrom]
  | cons y ys ih =>
    simp only [removeDuplicatesFrom]
    split
    · rename_i hy
      rw [ih]
      constructor
      · rintro ⟨h1, h2⟩; exact ⟨List.mem_cons_of_mem _ h1, h2⟩
      · rintro ⟨h1, h2⟩
        rcases List.mem_cons.mp h1 with h | h
        · subst h; exact absurd hy h2
        · exact ⟨h, h2⟩
    · rename_i hy
      simp only [List.mem_cons, ih, not_or]
      constructor
      · rintro (h | ⟨h1, h2, h3⟩)
        · subst h; exact ⟨Or.inl rfl, hy⟩
        · exact ⟨Or.inr h1, h3⟩
      · rintro ⟨h1 | h1, h2⟩
        · exact Or.inl h1
        · by_cases hxy : x = y
          · exact Or.inl hxy
          · exact Or.inr ⟨h1, hxy, h2⟩

theorem nodup_removeDuplicatesFrom (seen l : List String) :
    (removeDuplicatesFrom seen l).Nodup := by
  induction l generalizing seen with
  | nil => simp [removeDuplicatesFrom]
  | cons y ys ih =>
    simp only [removeDuplicatesFrom]
    split
    · exact ih seen
    · refine List.nodup_cons.mpr ⟨?_, ih _⟩
      rw [mem_removeDuplicatesFrom]
      simp

theorem insertSorted_perm (x : String) (l : List String) : (insertSorted x l).Perm (x :: l) := by
  induction l with
  | nil => simp [insertSorted]
  | cons y ys ih =>
    simp only [insertSorted]
    split
    · exact (List.Perm.cons y ih).trans (List.Perm.swap x y ys)
    · exact List.Perm.refl _

theorem sort_perm (l : List String) : (sort l).Perm l := by
  induction l with
  | nil => exact List.Perm.refl _
  | cons x xs ih => exact (insertSorted_perm x (sort xs)).trans (List.Perm.cons x ih)

theorem insertSorted_sorted (x : String) (l : List String)
    (h : l.Pairwise (fun a b => qStringLt b a = false)) :
    (insertSorted x l).Pairwise (fun a b => qStringLt b a = false) := by
  induction l with
  | nil => simp [insertSorted]
  | cons y ys ih =>
    simp only [insertSorted]
    have hy := List.pairwise_cons.mp h
    split
    · rename_i hlt
      refine List.pairwise_cons.mpr ⟨?_, ih hy.2⟩
      intro z hz
      rcases List.mem_cons.mp ((insertSorted_perm x ys).subset hz) with hzx | hzy
      · subst hzx
        cases hzy : qStringLt z y with
        | false => rfl
        | true =>
          have := qStringLt_trans hzy hlt
          rw [qStringLt_irrefl] at this
          cases this
      · exact hy.1 z hzy
    · rename_i hlt
      have hlt' : qStringLt y x = false := by simpa using hlt
      refine List.pairwise_cons.mpr ⟨?_, h⟩
      intro z hz
      rcases List.mem_cons.mp hz with hzy | hzy
      · subst hzy; exact hlt'
      · have hyz := hy.1 z hzy
        cases hzx : qStringLt z x with
        | false => rfl
        | true =>
          cases hxy : qStringLt x y with
          | true =>
            have := qStringLt_trans hzx hxy
            rw [hyz] at this
            cases this
          | false =>
            have hxy' : x = y := qStringLt_total hxy hlt'
            subst hxy'
            rw [hyz] at hzx
            cases hzx

theorem sort_sorted (l : List String) : (sort l).Pairwise (fun a b => qStringLt b a = false) := by
  induction l with
  | nil => simp [sort]
  | cons x xs ih => exact insertSorted_sorted x _ ih

theorem mem_modules (fm : qSlicerAbstractModuleFactoryManager) (n : String) :
    n ∈ modules (some fm) ↔ n ∈ knownNames fm := by
  simp only [modules, knownNames]
  rw [(sort_perm _).mem_iff, removeDuplicates, mem_removeDuplicatesFrom]
  simp

/-! ## View states and entries that are up to date -/

theorem entryOf_userRole (fm : qSlicerAbstractModuleFactoryManager) (S : List String)
    (σ : String → CheckState) (it : QStandardItem) :
    (entryOf fm S σ it).userRole = it.userRole := rfl

theorem viewState_names (M : List QStandardItem) (fm : qSlicerAbstractModuleFactoryManager)
    (S : List String) (σ : String → CheckState) :
    (viewState M fm S σ).ModulesListModel.map QStandardItem.userRole
      = M.map QStandardItem.userRole := by
  simp [viewState, Function.comp_def, entryOf_userRole]

theorem viewState_get (M : List QStandardItem) (fm : qSlicerAbstractModuleFactoryManager)
    (S : List String) (σ : String → CheckState) (r : Nat) (it0 : QStandardItem)
    (h : M[r]? = some it0) :
    (viewState M fm S σ).ModulesListModel[r]? = some (entryOf fm S σ it0) := by
  simp [viewState, h]

theorem viewState_addressable {M : List QStandardItem} (ha : Addressable M)
    (fm : qSlicerAbstractModuleFactoryManager) (S : List String) (σ : String → CheckState) :
    Addressable (viewState M fm S σ).ModulesListModel :=
  Addressable.congr (viewState_names M fm S σ).symm ha

theorem setItemData_same (slot : Slot) (d : qSlicerModulesListViewPrivate) (row : Nat)
    (value : QStandardItem → QStandardItem) (item : QStandardItem)
    (h : d.ModulesListModel[row]? = some item) (hv : value item = item) :
    setItemData slot d row value = some d := by
  simp [setItemData, h, hv]

theorem setItemData_changed (slot : Slot) (d : qSlicerModulesListViewPrivate) (row : Nat)
    (value : QStandardItem → QStandardItem) (item : QStandardItem)
    (h : d.ModulesListModel[row]? = some item) (hv : value item ≠ item) :
    setItemData slot d row value
      = slot { d with ModulesListModel := d.ModulesListModel.set row (value item) } row := by
  simp [setItemData, h, hv]

theorem updateItem_of_refreshed (slot : Slot) (d : qSlicerModulesListViewPrivate) (row : Nat)
    (item : QStandardItem) (h : d.ModulesListModel[row]? = some item)
    (hr : refreshed d.FactoryManager item = item) : updateItem slot d row = some d := by
  have h1 : item.checkable = true := by rw [← hr]; rfl
  have h2 : item.foreground = foregroundOf d.FactoryManager item.userRole := by
    conv_lhs => rw [← hr]
    rfl
  have h3 : item.checkState = checkStateOf d.FactoryManager item.userRole := by
    conv_lhs => rw [← hr]
    rfl
  have h4 : item.text = textOf d.FactoryManager item.userRole := by
    conv_lhs => rw [← hr]
    rfl
  have h5 : item.toolTip = toolTipOf d.FactoryManager item.userRole := by
    conv_lhs => rw [← hr]
    rfl
  simp only [updateItem, h]
  rw [setItemData_same slot d row _ item h (by rw [← h1])]
  simp only [Option.some_bind]
  rw [setItemData_same slot d row _ item h (by rw [← h2])]
  simp only [Option.some_bind]
  rw [setItemData_same slot d row _ item h (by rw [← h3])]
  simp only [Option.some_bind]
  rw [setItemData_same slot d row _ item h (by rw [← h4])]
  simp only [Option.some_bind]
  rw [setItemData_same slot d row _ item h (by rw [← h5])]

theorem checkStateOf_of_not_mem (fm : qSlicerAbstractModuleFactoryManager) (S : List String)
    (x : String) (h : x ∉ S) : checkStateOf (withIgnore fm S) x = CheckState.Checked := by
  simp [checkStateOf, withIgnore, h]

theorem checkStateOf_of_mem (fm : qSlicerAbstractModuleFactoryManager) (S : List String)
    (x : String) (h : x ∈ S) : checkStateOf (withIgnore fm S) x = CheckState.Unchecked := by
  simp [checkStateOf, withIgnore, h]

theorem shownState_of_mem {S : List String} (σ : String → CheckState) {n : String} (h : n ∈ S) :
    shownState S σ n = CheckState.Unchecked := by
  simp [shownState, h]

theorem shownState_of_not_mem {S : List String} (σ : String → CheckState) {n : String}
    (h : n ∉ S) : shownState S σ n = σ n := by
  simp [shownState, h]

/-- An entry is up to date when its module is in the ignore set or its check box is
checked. -/
theorem entryOf_refreshed (fm : qSlicerAbstractModuleFactoryManager) (S : List String)
    (σ : String → CheckState) (it : QStandardItem)
    (h : it.userRole ∈ S ∨ σ it.userRole = CheckState.Checked) :
    refreshed (withIgnore fm S) (entryOf fm S σ it) = entryOf fm S σ it := by
  have hcs : checkStateOf (withIgnore fm S) it.userRole = shownState S σ it.userRole := by
    by_cases hm : it.userRole ∈ S
    · rw [checkStateOf_of_mem fm S _ hm, shownState_of_mem σ hm]
    · rw [checkStateOf_of_not_mem fm S _ hm, shownState_of_not_mem σ hm]
      exact (h.resolve_left hm).symm
  simp only [entryOf, refreshed, hcs]
  rfl

theorem updateModule_upToDate (slot : Slot) (M : List QStandardItem)
    (fm : qSlicerAbstractModuleFactoryManager) (S : List String) (σ : String → CheckState)
    (n : String) (ha : Addressable M) (hn : n ∈ M.map QStandardItem.userRole)
    (h : n ∈ S ∨ σ n = CheckState.Checked) :
    updateModule slot (viewState M fm S σ) n = some (viewState M fm S σ) := by
  obtain ⟨row, item, hfind, hget, hname⟩ := ha.find hn
  have hfind' : moduleItem (viewState M fm S σ).ModulesListModel n = some row := by
    rw [moduleItem_congr _ M n (viewState_names M fm S σ)]; exact hfind
  simp only [updateModule, hfind']
  apply updateItem_of_refreshed slot _ row _ (viewState_get M fm S σ row item hget)
  subst hname
  exact entryOf_refreshed fm S σ item h

/-- A model with the entries of `M`, row by row in the check states given by `S` and
`σ`, is the model of the view state. -/
theorem model_eq_viewState (M L : List QStandardItem) (fm : qSlicerAbstractModuleFactoryManager)
    (S : List String) (σ : String → CheckState) (hlen : L.length = M.length)
    (h : ∀ (r : Nat) (it0 : QStandardItem), M[r]? = some it0 →
      L[r]? = some (entryOf fm S σ it0)) :
    L = (viewState M fm S σ).ModulesListModel := by
  apply List.ext_getElem?
  intro r
  simp only [viewState, List.getElem?_map]
  cases hm : M[r]? with
  | none =>
    have : M.length ≤ r := List.getElem?_eq_none_iff.mp hm
    simp [List.getElem?_eq_none_iff.mpr (hlen ▸ this)]
  | some it0 => simp [h r it0 hm]

/-- Two descriptions give the same entries when they give every entry the same
check state. -/
theorem viewState_model_congr (M : List QStandardItem) (fm : qSlicerAbstractModuleFactoryManager)
    (S S' : List String) (σ σ' : String → CheckState)
    (h : ∀ it ∈ M, shownState S σ it.userRole = shownState S' σ' it.userRole) :
    (viewState M fm S σ).ModulesListModel = (viewState M fm S' σ').ModulesListModel := by
  simp only [viewState]
  apply List.map_congr_left
  intro it hit
  simp only [entryOf, h it hit]

/-- Setting the check state of one entry leads to the view state whose description
gives that entry the new state and every other entry its old state. -/
theorem viewState_model_set (M : List QStandardItem) (fm : qSlicerAbstractModuleFactoryManager)
    (S S' : List String) (σ σ' : String → CheckState) (r : Nat) (item0 : QStandardItem)
    (c : CheckState) (hget : M[r]? = some item0) (ha : Addressable M)
    (hc : shownState S' σ' item0.userRole = c)
    (h : ∀ it ∈ M, it.userRole ≠ item0.userRole →
      shownState S σ it.userRole = shownState S' σ' it.userRole) :
    (viewState M fm S σ).ModulesListModel.set r { entryOf fm S σ item0 with checkState := c }
      = (viewState M fm S' σ').ModulesListModel := by
  apply model_eq_viewState
  · simp [viewState]
  · intro r' it0' hg'
    by_cases hrr : r = r'
    · subst hrr
      have hlt : r < M.length := (List.getElem?_eq_some_iff.mp hget).1
      rw [hget] at hg'
      cases hg'
      rw [List.getElem?_set_self (by simpa [viewState] using hlt), ← hc]
      rfl
    · rw [List.getElem?_set_ne hrr, viewState_get M fm S σ r' it0' hg']
      congr 1
      simp only [entryOf]
      rw [h it0' (List.getElem?_mem hg') (fun hn => hrr (ha.row_unique hget hg' hn.symm))]

/-! ## Bounds on the nesting of the slot and stretches of an enable cascade -/

theorem filter_length_mono {α : Type} (l : List α) (p q : α → Bool)
    (h : ∀ a, q a = true → p a = true) : (l.filter q).length ≤ (l.filter p).length := by
  induction l with
  | nil => simp
  | cons a l ih =>
    simp only [List.filter_cons]
    cases hq : q a with
    | true =>
      rw [h a hq]
      simpa using ih
    | false =>
      cases p a with
      | true => simp only [ite_true, Bool.false_eq_true, ite_false, List.length_cons]; omega
      | false => simpa using ih

theorem filter_length_lt {α : Type} (l : List α) (p q : α → Bool)
    (h : ∀ a, q a = true → p a = true) (y : α) (hy : y ∈ l) (hpy : p y = true)
    (hqy : q y = false) : (l.filter q).length < (l.filter p).length := by
  induction l with
  | nil => simp at hy
  | cons a l ih =>
    simp only [List.filter_cons]
    rcases List.mem_cons.mp hy with hya | hyl
    · subst hya
      rw [hpy, hqy]
      have := filter_length_mono l p q h
      simp only [ite_true, Bool.false_eq_true, ite_false, List.length_cons]
      omega
    · have := ih hyl
      cases hq : q a with
      | true =>
        rw [h a hq]
        simpa using this
      | false =>
        cases p a with
        | true => simp only [ite_true, Bool.false_eq_true, ite_false, List.length_cons]; omega
        | false => simpa using this

theorem uncheckedEntries_le (M : List QStandardItem) (S : List String)
    (σ : String → CheckState) : uncheckedEntries M S σ ≤ M.length :=
  List.length_filter_le _ _

theorem uncheckedEntries_mono (M : List QStandardItem) (S S' : List String)
    (σ σ' : String → CheckState)
    (h : ∀ n, shownState S' σ' n = CheckState.Unchecked →
      shownState S σ n = CheckState.Unchecked) :
    uncheckedEntries M S' σ' ≤ uncheckedEntries M S σ := by
  apply filter_length_mono
  intro a ha
  simp only [decide_eq_true_eq] at ha ⊢
  exact h _ ha

theorem cases_checkState (c : CheckState) :
    c = CheckState.Checked ∨ c = CheckState.Unchecked := by
  cases c
  · exact Or.inr rfl
  · exact Or.inl rfl

theorem shownState_update_checked (S : List String) (σ : String → CheckState) (h n : String)
    (hh : h ∉ S) :
    shownState S (Function.update σ h CheckState.Checked) n
      = if n = h then CheckState.Checked else shownState S σ n := by
  by_cases hn : n = h
  · subst hn
    simp [shownState, hh]
  · simp [shownState, Function.update_noteq hn, hn]

/-- Checking the box of an unchecked entry lowers the number of unchecked
entries. -/
theorem uncheckedEntries_update_lt (M : List QStandardItem) (S : List String)
    (σ : String → CheckState) (item0 : QStandardItem) (hmem : item0 ∈ M)
    (hS : item0.userRole ∉ S) (hu : σ item0.userRole = CheckState.Unchecked) :
    uncheckedEntries M S (Function.update σ item0.userRole CheckState.Checked)
      < uncheckedEntries M S σ := by
  apply filter_length_lt _ _ _ _ item0 hmem
  · simp [shownState, hS, hu]
  · simp [shownState, hS]
  · intro a ha
    simp only [decide_eq_true_eq] at ha ⊢
    rw [shownState_update_checked S σ _ _ hS] at ha
    by_cases hn : a.userRole = item0.userRole
    · simp [hn] at ha
    · simpa [hn] using ha

theorem EnableStep.refl (M : List QStandardItem) (fm : qSlicerAbstractModuleFactoryManager)
    (S : List String) (σ : String → CheckState) (root visit : String → Prop) :
    EnableStep M fm S σ S σ root visit where
  sub := List.Sublist.refl S
  measure := Nat.le_refl _
  keep := fun _ _ h => h
  removedChecked := fun _ hm hm' => absurd hm hm'
  frame := fun _ hm hm' => absurd hm hm'
  fresh := fun _ hm h => Or.inl ⟨hm, h⟩
  still := fun _ _ _ => rfl

theorem EnableStep.weaken {M : List QStandardItem} {fm : qSlicerAbstractModuleFactoryManager}
    {S S' : List String} {σ σ' : String → CheckState} {root visit root' visit' : String → Prop}
    (h : EnableStep M fm S σ S' σ' root visit)
    (hr : ∀ n, root n → ∃ n', root' n' ∧ Reaches fm n' n)
    (hv : ∀ n, visit n → visit' n) : EnableStep M fm S σ S' σ' root' visit' where
  sub := h.sub
  measure := h.measure
  keep := h.keep
  removedChecked := h.removedChecked
  frame := by
    intro m hm hm'
    obtain ⟨n, hn, hreach⟩ := h.frame m hm hm'
    obtain ⟨n', hn', hreach'⟩ := hr n hn
    exact ⟨n', hn', hreach'.trans hreach⟩
  fresh := h.fresh
  still := fun n hn hv' => h.still n hn (fun hvn => hv' (hv n hvn))

theorem EnableStep.trans {M : List QStandardItem} {fm : qSlicerAbstractModuleFactoryManager}
    {S S1 S2 : List String} {σ σ1 σ2 : String → CheckState}
    {root visit root1 visit1 root2 visit2 : String → Prop}
    (h1 : EnableStep M fm S σ S1 σ1 root1 visit1)
    (h2 : EnableStep M fm S1 σ1 S2 σ2 root2 visit2)
    (hr1 : ∀ n, root1 n → ∃ n', root n' ∧ Reaches fm n' n)
    (hr2 : ∀ n, root2 n → ∃ n', root n' ∧ Reaches fm n' n)
    (hv1 : ∀ n, visit1 n → visit n) (hv2 : ∀ n, visit2 n → visit n) :
    EnableStep M fm S σ S2 σ2 root visit where
  sub := h2.sub.trans h1.sub
  measure := Nat.le_trans h2.measure h1.measure
  keep := fun n hn hc =>
    h2.keep n (fun h => hn (h1.sub.subset h)) (h1.keep n hn hc)
  removedChecked := by
    intro m hm hm2 hl
    by_cases hm1 : m ∈ S1
    · exact h2.removedChecked m hm1 hm2 hl
    · exact h2.keep m hm1 (h1.removedChecked m hm hm1 hl)
  frame := by
    intro m hm hm2
    by_cases hm1 : m ∈ S1
    · obtain ⟨n, hn, hreach⟩ := h2.frame m hm1 hm2
      obtain ⟨n', hn', hreach'⟩ := hr2 n hn
      exact ⟨n', hn', hreach'.trans hreach⟩
    · obtain ⟨n, hn, hreach⟩ := h1.frame m hm hm1
      obtain ⟨n', hn', hreach'⟩ := hr1 n hn
      exact ⟨n', hn', hreach'.trans hreach⟩
  fresh := by
    intro m hm2 hc2
    rcases h2.fresh m hm2 hc2 with ⟨hm1, hc1⟩ | hok
    · rcases h1.fresh m hm1 hc1 with hl | hok
      · exact Or.inl hl
      · exact Or.inr (fun x hx hx2 => hok x hx (h2.sub.subset hx2))
    · exact Or.inr hok
  still := by
    intro n hn hv
    rw [h2.still n (fun h => hn (h1.sub.subset h)) (fun h => hv (hv2 n h)),
      h1.still n hn (fun h => hv (hv1 n h))]

/-- Checking the box of the stale entry `h` and serving the enable request that
follows. -/
theorem EnableStep.of_flip {M : List QStandardItem} {fm : qSlicerAbstractModuleFactoryManager}
    {S S2 : List String} {σ σ2 : String → CheckState} {h : String}
    (hS : h ∉ S) (hu : σ h = CheckState.Unchecked)
    (hpost : EnablePost M fm S (Function.update σ h CheckState.Checked) S2 σ2 h) :
    EnableStep M fm S σ S2 σ2
      (fun n => n = h ∨ (Listed fm n ∧ n ∉ S ∧ σ n = CheckState.Unchecked))
      (fun n => n = h ∨ Listed fm n) where
  sub := hpost.step.sub
  measure := by
    refine Nat.le_trans hpost.step.measure (uncheckedEntries_mono M S S σ _ ?_)
    intro n hit
    rw [shownState_update_checked S σ _ _ hS] at hit
    by_cases hn : n = h
    · simp [hn] at hit
    · simpa [hn] using hit
  keep := by
    intro n hn hc
    apply hpost.step.keep n hn
    by_cases hnh : n = h
    · subst hnh; simp
    · rw [Function.update_noteq hnh]; exact hc
  removedChecked := hpost.step.removedChecked
  frame := by
    intro m hm hm'
    obtain ⟨n, hn, hreach⟩ := hpost.step.frame m hm hm'
    refine ⟨n, ?_, hreach⟩
    rcases hn with hn | ⟨hl, hnS, hnu⟩
    · exact Or.inl hn
    · refine Or.inr ⟨hl, hnS, ?_⟩
      by_cases hnh : n = h
      · subst hnh; simp at hnu
      · rwa [Function.update_noteq hnh] at hnu
  fresh := by
    intro m hm2 hc2
    rcases hpost.step.fresh m hm2 hc2 with ⟨hmS, hc1⟩ | hok
    · by_cases hmh : m = h
      · subst hmh; exact Or.inr hpost.deps
      · rw [Function.update_noteq hmh] at hc1
        exact Or.inl ⟨hmS, hc1⟩
    · exact Or.inr hok
  still := by
    intro n hn hv
    have hnh : n ≠ h := fun e => hv (Or.inl e)
    rw [hpost.step.still n hn (fun hl => hv (Or.inr hl)), Function.update_noteq hnh]

/-! ## Delivery of `modulesToIgnoreChanged` during an enable cascade -/

theorem filter_ne_of_not_mem (S : List String) (x : String) (h : x ∉ S) :
    S.filter (fun m => decide (m ≠ x)) = S := by
  rw [List.filter_eq_self]
  intro a ha
  simp only [ne_eq, decide_not, Bool.not_eq_eq_eq_not, Bool.not_true, decide_eq_false_iff_not]
  intro hax
  exact h (hax ▸ ha)

theorem filter_ne_length_lt (S : List String) (x : String) (h : x ∈ S) :
    (S.filter (fun m => decide (m ≠ x))).length < S.length := by
  rw [List.length_filter_lt_length_iff_exists]
  exact ⟨x, h, by simp⟩

theorem mem_filter_ne (S : List String) (x m : String) :
    m ∈ S.filter (fun m => decide (m ≠ x)) ↔ m ∈ S ∧ m ≠ x := by
  simp [List.mem_filter]

theorem mem_modules_withIgnore (fm : qSlicerAbstractModuleFactoryManager) (S : List String)
    (n : String) : n ∈ modules (some (withIgnore fm S)) ↔ Listed fm n ∨ n ∈ S := by
  rw [mem_modules]
  simp only [knownNames, withIgnore, List.mem_append, Listed]
  tauto

theorem modules_withIgnore_subset (M : List QStandardItem)
    (fm : qSlicerAbstractModuleFactoryManager) (S : List String) (hc : Covered M fm)
    (hS : ∀ m ∈ S, m ∈ M.map QStandardItem.userRole) :
    ∀ n ∈ modules (some (withIgnore fm S)), n ∈ M.map QStandardItem.userRole := by
  intro n hn
  rcases (mem_modules_withIgnore fm S n).mp hn with h | h
  · exact hc.known n h
  · exact hS n h

/-- Refreshing an unchecked entry whose module is not in the ignore set checks its
box, which runs the slot. -/
theorem updateItem_check (slot : Slot) (M : List QStandardItem)
    (fm : qSlicerAbstractModuleFactoryManager) (S S2 : List String)
    (σ σ2 : String → CheckState) (r : Nat) (item0 : QStandardItem)
    (hget : M[r]? = some item0) (ha : Addressable M)
    (hS : item0.userRole ∉ S) (hu : σ item0.userRole = CheckState.Unchecked)
    (hslot : slot (viewState M fm S (Function.update σ item0.userRole CheckState.Checked)) r
      = some (viewState M fm S2 σ2)) :
    updateItem slot (viewState M fm S σ) r = some (viewState M fm S2 σ2) := by
  have hg := viewState_get M fm S σ r item0 hget
  have hg2 := viewState_get M fm S2 σ2 r item0 hget
  have hmodel := viewState_model_set M fm S S σ
    (Function.update σ item0.userRole CheckState.Checked) r item0 CheckState.Checked hget ha
    (by simp [shownState, hS])
    (fun it _ hne => by rw [shownState_update_checked _ _ _ _ hS]; simp [hne])
  have hcs : checkStateOf (withIgnore fm S) item0.userRole = CheckState.Checked :=
    checkStateOf_of_not_mem fm S _ hS
  simp only [updateItem, hg]
  rw [setItemData_same slot (viewState M fm S σ) r _ _ hg rfl]
  simp only [Option.some_bind]
  rw [setItemData_same slot (viewState M fm S σ) r _ _ hg rfl]
  simp only [Option.some_bind]
  rw [setItemData_changed slot (viewState M fm S σ) r _ _ hg]
  · have hcs' : checkStateOf (viewState M fm S σ).FactoryManager (entryOf fm S σ item0).userRole
        = CheckState.Checked := hcs
    rw [hcs']
    simp only [] at hmodel
    rw [hmodel]
    show (slot (viewState M fm S (Function.update σ item0.userRole CheckState.Checked)) r).bind _
      = _
    rw [hslot]
    simp only [Option.some_bind]
    rw [setItemData_same slot (viewState M fm S2 σ2) r _ _ hg2 rfl]
    simp only [Option.some_bind]
    rw [setItemData_same slot (viewState M fm S2 σ2) r _ _ hg2 rfl]
  · intro hEq
    have h1 := congrArg QStandardItem.checkState hEq
    have h2 : shownState S σ item0.userRole = CheckState.Unchecked := by
      rw [shownState_of_not_mem σ hS, hu]
    simp only [entryOf, entryOf_userRole] at h1
    rw [h2] at h1
    have h3 : checkStateOf (viewState M fm S σ).FactoryManager item0.userRole
        = CheckState.Checked := hcs
    rw [refreshed_userRole, h3] at h1
    cases h1

/-- Delivery of `modulesToIgnoreChanged` during an enable cascade: the entries of the
names are refreshed in turn; a stale entry gets its box checked and its enable
request served. -/
theorem updateModulesOf_enable (slot : Slot) (M : List QStandardItem)
    (fm : qSlicerAbstractModuleFactoryManager) (k : Nat) (hc : Covered M fm)
    (hslot : EnableSlot slot M fm k) (L : List String) :
    ∀ (S : List String) (σ : String → CheckState),
      (∀ n ∈ L, n ∈ M.map QStandardItem.userRole) →
      (∀ m ∈ S, m ∈ M.map QStandardItem.userRole) →
      uncheckedEntries M S σ ≤ k →
      ∃ S' σ', updateModulesOf slot (viewState M fm S σ) L = some (viewState M fm S' σ') ∧
        EnableStep M fm S σ S' σ'
          (fun n => (n ∈ L ∨ Listed fm n) ∧ n ∉ S ∧ σ n = CheckState.Unchecked)
          (fun n => n ∈ L ∨ Listed fm n) ∧
        (∀ n ∈ L, n ∉ S → σ' n = CheckState.Checked) := by
  induction L with
  | nil =>
    intro S σ _ _ _
    exact ⟨S, σ, rfl, EnableStep.refl M fm S σ _ _, by simp⟩
  | cons h rest ih =>
    intro S σ hL hS hlen
    have hrest : ∀ n ∈ rest, n ∈ M.map QStandardItem.userRole :=
      fun n hn => hL n (List.mem_cons_of_mem _ hn)
    by_cases hup : h ∈ S ∨ σ h = CheckState.Checked
    · obtain ⟨S', σ', hrun, hstep, hvis⟩ := ih S σ hrest hS hlen
      refine ⟨S', σ', ?_, ?_, ?_⟩
      · simp only [updateModulesOf]
        rw [updateModule_upToDate slot M fm S σ h hc.addressable (hL h (List.mem_cons_self _ _))
          hup]
        simpa using hrun
      · apply hstep.weaken
        · rintro n ⟨hn, hnS, hnu⟩
          exact ⟨n, ⟨hn.imp (List.mem_cons_of_mem _) id, hnS, hnu⟩, Relation.ReflTransGen.refl⟩
        · intro n hn
          exact hn.imp (List.mem_cons_of_mem _) id
      · intro n hn hnS
        rcases List.mem_cons.mp hn with e | hn
        · subst e
          exact hstep.keep n hnS (hup.resolve_left hnS)
        · exact hvis n hn hnS
    · have hhS : h ∉ S := fun e => hup (Or.inl e)
      have hhu : σ h = CheckState.Unchecked :=
        (cases_checkState (σ h)).resolve_left (fun e => hup (Or.inr e))
      obtain ⟨r, item0, hfind, hget, hname⟩ := hc.addressable.find (hL h (List.mem_cons_self _ _))
      subst hname
      have hlt := uncheckedEntries_update_lt M S σ item0 (List.getElem?_mem hget) hhS hhu
      obtain ⟨S2, σ2, hrun2, hpost2⟩ := hslot S
        (Function.update σ item0.userRole CheckState.Checked) r item0 hget hhS (by simp) hS
        (by omega)
      have hstep1 := EnableStep.of_flip hhS hhu hpost2
      obtain ⟨S', σ', hrun, hstep, hvis⟩ := ih S2 σ2 hrest
        (fun m hm => hS m (hpost2.step.sub.subset hm))
        (by have := hpost2.step.measure; omega)
      refine ⟨S', σ', ?_, ?_, ?_⟩
      · have hfind' : moduleItem (viewState M fm S σ).ModulesListModel item0.userRole = some r := by
          rw [moduleItem_congr _ M _ (viewState_names M fm S σ)]; exact hfind
        simp only [updateModulesOf, updateModule, hfind']
        rw [updateItem_check slot M fm S S2 σ σ2 r item0 hget hc.addressable hhS hhu hrun2]
        simpa using hrun
      · apply EnableStep.trans hstep1 hstep
        · rintro n (hn | ⟨hl, hnS, hnu⟩)
          · rw [hn]
            exact ⟨_, ⟨Or.inl (List.mem_cons_self _ _), hhS, hhu⟩, Relation.ReflTransGen.refl⟩
          · exact ⟨n, ⟨Or.inr hl, hnS, hnu⟩, Relation.ReflTransGen.refl⟩
        · rintro n ⟨hn, hn2, hnu2⟩
          by_cases hnS : n ∈ S
          · obtain ⟨n', hn', hreach⟩ := hstep1.frame n hnS hn2
            refine ⟨n', ?_, hreach⟩
            rcases hn' with hn' | ⟨hl, hnS', hnu'⟩
            · rw [hn']
              exact ⟨Or.inl (List.mem_cons_self _ _), hhS, hhu⟩
            · exact ⟨Or.inr hl, hnS', hnu'⟩
          · rcases cases_checkState (σ n) with hcn | hun
            · have := hstep1.keep n hnS hcn
              rw [this] at hnu2
              cases hnu2
            · exact ⟨n, ⟨hn.imp (List.mem_cons_of_mem _) id, hnS, hun⟩,
                Relation.ReflTransGen.refl⟩
        · rintro n (hn | hl)
          · rw [hn]; exact Or.inl (List.mem_cons_self _ _)
          · exact Or.inr hl
        · intro n hn
          exact hn.imp (List.mem_cons_of_mem _) id
      · intro n hn hnS
        rcases List.mem_cons.mp hn with e | hn
        · subst e
          have h2 : σ2 item0.userRole = CheckState.Checked :=
            hpost2.step.keep _ hhS (by simp)
          exact hstep.keep _ (fun e => hhS (hpost2.step.sub.subset e)) h2
        · exact hvis n hn (fun e => hnS (hpost2.step.sub.subset e))

theorem shownState_remove (S : List String) (σ : String → CheckState) (x : String)
    (hx : x ∈ S) (n : String) :
    shownState (S.filter (fun m => decide (m ≠ x))) (Function.update σ x CheckState.Unchecked) n
      = shownState S σ n := by
  by_cases hn : n = x
  · subst hn
    simp [shownState, hx]
  · simp only [shownState, mem_filter_ne, Function.update_noteq hn]
    simp [hn]

/-- Taking the name `x` out of the ignore set and delivering the notification. -/
theorem EnableStep.of_remove {M : List QStandardItem} {fm : qSlicerAbstractModuleFactoryManager}
    {S S2 : List String} {σ σ2 : String → CheckState} {x : String} {L : List String}
    (hx : x ∈ S) (hL : ∀ n, n ∈ L ↔ Listed fm n ∨ n ∈ S.filter (fun m => decide (m ≠ x)))
    (hstep : EnableStep M fm (S.filter (fun m => decide (m ≠ x)))
      (Function.update σ x CheckState.Unchecked) S2 σ2
      (fun n => (n ∈ L ∨ Listed fm n) ∧ n ∉ S.filter (fun m => decide (m ≠ x)) ∧
        Function.update σ x CheckState.Unchecked n = CheckState.Unchecked)
      (fun n => n ∈ L ∨ Listed fm n))
    (hvis : ∀ n ∈ L, n ∉ S.filter (fun m => decide (m ≠ x)) → σ2 n = CheckState.Checked) :
    EnableStep M fm S σ S2 σ2
      (fun n => n = x ∨ (Listed fm n ∧ n ∉ S ∧ σ n = CheckState.Unchecked)) (Listed fm) where
  sub := hstep.sub.trans (List.filter_sublist S)
  measure := by
    refine Nat.le_trans hstep.measure (uncheckedEntries_mono M S _ σ _ ?_)
    intro n hn
    rwa [shownState_remove S σ x hx] at hn
  keep := by
    intro n hn hcn
    have hnx : n ≠ x := fun e => hn (e ▸ hx)
    apply hstep.keep n (fun h => hn ((mem_filter_ne S x n).mp h).1)
    rw [Function.update_noteq hnx]; exact hcn
  removedChecked := by
    intro m hm hm2 hl
    by_cases hmx : m = x
    · subst hmx
      exact hvis m ((hL m).mpr (Or.inl hl)) (fun h => ((mem_filter_ne S m m).mp h).2 rfl)
    · exact hstep.removedChecked m ((mem_filter_ne S x m).mpr ⟨hm, hmx⟩) hm2 hl
  frame := by
    intro m hm hm2
    by_cases hmx : m = x
    · subst hmx
      exact ⟨m, Or.inl rfl, Relation.ReflTransGen.refl⟩
    · obtain ⟨n, ⟨hn, hn1, hnu⟩, hreach⟩ :=
        hstep.frame m ((mem_filter_ne S x m).mpr ⟨hm, hmx⟩) hm2
      refine ⟨n, ?_, hreach⟩
      by_cases hnx : n = x
      · exact Or.inl hnx
      · rw [Function.update_noteq hnx] at hnu
        have hnS : n ∉ S := fun h => hn1 ((mem_filter_ne S x n).mpr ⟨h, hnx⟩)
        have hl : Listed fm n := by
          rcases hn with hn | hn
          · exact ((hL n).mp hn).resolve_right hn1
          · exact hn
        exact Or.inr ⟨hl, hnS, hnu⟩
  fresh := by
    intro m hm2 hc2
    rcases hstep.fresh m hm2 hc2 with ⟨hm1, hc1⟩ | hok
    · by_cases hmx : m = x
      · subst hmx
        simp at hc1
      · rw [Function.update_noteq hmx] at hc1
        exact Or.inl ⟨fun h => hm1 ((mem_filter_ne S x m).mpr ⟨h, hmx⟩), hc1⟩
    · exact Or.inr hok
  still := by
    intro n hn hl
    have hnx : n ≠ x := fun e => hn (e ▸ hx)
    have hn1 : n ∉ S.filter (fun m => decide (m ≠ x)) :=
      fun h => hn ((mem_filter_ne S x n).mp h).1
    rw [hstep.still n hn1, Function.update_noteq hnx]
    rintro (h | h)
    · exact ((hL n).mp h).elim hl hn1
    · exact hl h

theorem removeModuleToIgnore_absent (slot : Slot) (M : List QStandardItem)
    (fm : qSlicerAbstractModuleFactoryManager) (S : List String) (σ : String → CheckState)
    (x : String) (hx : x ∉ S) :
    removeModuleToIgnore slot (viewState M fm S σ) x = some (viewState M fm S σ) := by
  simp only [removeModuleToIgnore, setModulesToIgnore]
  have : (viewState M fm S σ).FactoryManager.modulesToIgnore = S := rfl
  rw [this, filter_ne_of_not_mem S x hx]
  simp

/-- Taking a name of the ignore set out of it stores the smaller set and delivers
the notification on the unchanged entries. -/
theorem removeModuleToIgnore_present (slot : Slot) (M : List QStandardItem)
    (fm : qSlicerAbstractModuleFactoryManager) (S : List String) (σ : String → CheckState)
    (x : String) (hx : x ∈ S) :
    removeModuleToIgnore slot (viewState M fm S σ) x
      = updateModulesOf slot
          (viewState M fm (S.filter (fun m => decide (m ≠ x)))
            (Function.update σ x CheckState.Unchecked))
          (modules (some (withIgnore fm (S.filter (fun m => decide (m ≠ x)))))) := by
  simp only [removeModuleToIgnore, setModulesToIgnore]
  have hS0 : (viewState M fm S σ).FactoryManager.modulesToIgnore = S := rfl
  rw [hS0]
  have hne : S.filter (fun m => decide (m ≠ x)) ≠ S := by
    intro h
    have := filter_ne_length_lt S x hx
    rw [h] at this
    exact Nat.lt_irrefl _ this
  rw [if_neg hne]
  have hm := viewState_model_congr M fm S (S.filter (fun m => decide (m ≠ x))) σ
    (Function.update σ x CheckState.Unchecked)
    (fun it _ => (shownState_remove S σ x hx it.userRole).symm)
  show updateModulesOf slot
    ⟨(viewState M fm S σ).ModulesListModel, withIgnore fm (S.filter (fun m => decide (m ≠ x)))⟩
    (modules (some (withIgnore fm (S.filter (fun m => decide (m ≠ x)))))) = _
  rw [hm]
  rfl

/-! ## The cascade of an enable request -/

theorem uncheckedEntries_remove (M : List QStandardItem) (S : List String)
    (σ : String → CheckState) (x : String) (hx : x ∈ S) :
    uncheckedEntries M (S.filter (fun m => decide (m ≠ x)))
      (Function.update σ x CheckState.Unchecked) ≤ uncheckedEntries M S σ := by
  apply uncheckedEntries_mono
  intro n hn
  rwa [shownState_remove S σ x hx] at hn

/-- Loop over the declared dependencies of an enable request. -/
theorem removeModulesToIgnore_spec (slot : Slot) (M : List QStandardItem)
    (fm : qSlicerAbstractModuleFactoryManager) (k : Nat) (hc : Covered M fm)
    (hslot : EnableSlot slot M fm k) (deps : List String) :
    ∀ (S : List String) (σ : String → CheckState),
      (∀ m ∈ S, m ∈ M.map QStandardItem.userRole) → uncheckedEntries M S σ ≤ k →
      ∃ S' σ', removeModulesToIgnore slot (viewState M fm S σ) deps
          = some (viewState M fm S' σ') ∧
        EnableStep M fm S σ S' σ'
          (fun n => n ∈ deps ∨ (Listed fm n ∧ n ∉ S ∧ σ n = CheckState.Unchecked))
          (Listed fm) ∧
        ∀ x ∈ deps, x ∉ S' := by
  induction deps with
  | nil =>
    intro S σ _ _
    exact ⟨S, σ, rfl, EnableStep.refl M fm S σ _ _, by simp⟩
  | cons x rest ih =>
    intro S σ hS hlen
    by_cases hx : x ∈ S
    · have hS1 : ∀ m ∈ S.filter (fun m => decide (m ≠ x)), m ∈ M.map QStandardItem.userRole :=
        fun m hm => hS m ((mem_filter_ne S x m).mp hm).1
      obtain ⟨S2, σ2, hrun2, hstep2, hvis2⟩ := updateModulesOf_enable slot M fm k hc hslot
        (modules (some (withIgnore fm (S.filter (fun m => decide (m ≠ x))))))
        (S.filter (fun m => decide (m ≠ x))) (Function.update σ x CheckState.Unchecked)
        (modules_withIgnore_subset M fm _ hc hS1) hS1
        (Nat.le_trans (uncheckedEntries_remove M S σ x hx) hlen)
      have hstep1 := EnableStep.of_remove hx (mem_modules_withIgnore fm _) hstep2 hvis2
      obtain ⟨S', σ', hrun, hstep, hdeps⟩ := ih S2 σ2
        (fun m hm => hS m (hstep1.sub.subset hm)) (Nat.le_trans hstep1.measure hlen)
      refine ⟨S', σ', ?_, ?_, ?_⟩
      · simp only [removeModulesToIgnore]
        rw [removeModuleToIgnore_present slot M fm S σ x hx, hrun2]
        simpa using hrun
      · apply EnableStep.trans hstep1 hstep
        · rintro n (hn | hn)
          · rw [hn]
            exact ⟨_, Or.inl (List.mem_cons_self _ _), Relation.ReflTransGen.refl⟩
          · exact ⟨n, Or.inr hn, Relation.ReflTransGen.refl⟩
        · rintro n (hn | ⟨hl, hn2, hnu2⟩)
          · exact ⟨n, Or.inl (List.mem_cons_of_mem _ hn), Relation.ReflTransGen.refl⟩
          · by_cases hnS : n ∈ S
            · rw [hstep1.removedChecked n hnS hn2 hl] at hnu2
              cases hnu2
            · rcases cases_checkState (σ n) with hcn | hun
              · rw [hstep1.keep n hnS hcn] at hnu2
                cases hnu2
              · exact ⟨n, Or.inr ⟨hl, hnS, hun⟩, Relation.ReflTransGen.refl⟩
        · exact fun _ h => h
        · exact fun _ h => h
      · intro y hy hy'
        rcases List.mem_cons.mp hy with e | hy
        · have h2 := hstep2.sub.subset (hstep.sub.subset hy')
          rw [e] at h2
          exact ((mem_filter_ne S x x).mp h2).2 rfl
        · exact hdeps y hy hy'
    · obtain ⟨S', σ', hrun, hstep, hdeps⟩ := ih S σ hS hlen
      refine ⟨S', σ', ?_, ?_, ?_⟩
      · simp only [removeModulesToIgnore]
        rw [removeModuleToIgnore_absent slot M fm S σ x hx]
        simpa using hrun
      · apply hstep.weaken
        · rintro n (hn | hn)
          · exact ⟨n, Or.inl (List.mem_cons_of_mem _ hn), Relation.ReflTransGen.refl⟩
          · exact ⟨n, Or.inr hn, Relation.ReflTransGen.refl⟩
        · exact fun _ h => h
      · intro y hy hy'
        rcases List.mem_cons.mp hy with e | hy
        · exact hx (e ▸ hstep.sub.subset hy')
        · exact hdeps y hy hy'

theorem dependenciesOf_eq_of_instance {fm : qSlicerAbstractModuleFactoryManager} {n : String}
    {m : qSlicerAbstractCoreModule} (h : moduleInstance fm n = some m) :
    dependenciesOf fm n = m.dependencies := by
  simp [dependenciesOf, h]

theorem dependenciesOf_eq_nil_of_none {fm : qSlicerAbstractModuleFactoryManager} {n : String}
    (h : moduleInstance fm n = none) : dependenciesOf fm n = [] := by
  simp [dependenciesOf, h]

/-- Continuation of an enable request once the requested name is out of the
ignore set: the loop over the declared dependencies, under the guard
`if (module)`. -/
theorem enable_dependencies_spec (slot : Slot) (M : List QStandardItem)
    (fm : qSlicerAbstractModuleFactoryManager) (k : Nat) (hc : Covered M fm)
    (hslot : EnableSlot slot M fm k) (S : List String) (σ : String → CheckState) (X : String)
    (hS : ∀ m ∈ S, m ∈ M.map QStandardItem.userRole) (hlen : uncheckedEntries M S σ ≤ k) :
    ∃ S' σ', (match moduleInstance fm X with
        | some m => removeModulesToIgnore slot (viewState M fm S σ) m.dependencies
        | none => some (viewState M fm S σ)) = some (viewState M fm S' σ') ∧
      EnablePost M fm S σ S' σ' X := by
  cases hinst : moduleInstance fm X with
  | none =>
    refine ⟨S, σ, rfl, EnableStep.refl M fm S σ _ _, ?_⟩
    rw [dependenciesOf_eq_nil_of_none hinst]
    simp
  | some mod =>
    obtain ⟨S', σ', hrun, hstep, hdeps⟩ :=
      removeModulesToIgnore_spec slot M fm k hc hslot mod.dependencies S σ hS hlen
    refine ⟨S', σ', hrun, ?_, ?_⟩
    · apply hstep.weaken
      · rintro n (hn | hn)
        · refine ⟨X, Or.inl rfl, Relation.ReflTransGen.single ?_⟩
          simp only [DependsOn, dependenciesOf_eq_of_instance hinst]
          exact hn
        · exact ⟨n, Or.inr hn, Relation.ReflTransGen.refl⟩
      · exact fun _ h => h
    · rw [dependenciesOf_eq_of_instance hinst]
      exact hdeps

theorem onItemChanged_enableSlot (M : List QStandardItem)
    (fm : qSlicerAbstractModuleFactoryManager) (hc : Covered M fm) :
    ∀ n, EnableSlot (onItemChanged n) M fm n := by
  intro n
  induction n with
  | zero => intro S σ r item0 _ _ _ _ hlen; exact absurd hlen (Nat.not_lt_zero _)
  | succ n ih =>
    intro S σ r item0 hget hX hσ hS hlen
    have hg := viewState_get M fm S σ r item0 hget
    have hcs : (entryOf fm S σ item0).checkState = CheckState.Checked := by
      show shownState S σ item0.userRole = _
      rw [shownState_of_not_mem σ hX, hσ]
    obtain ⟨S', σ', hrun, hpost⟩ := enable_dependencies_spec (onItemChanged n) M fm n hc ih S σ
      item0.userRole hS (by omega)
    refine ⟨S', σ', ?_, hpost⟩
    simp only [onItemChanged, onItemChangedBody, hg, hcs, if_true]
    rw [entryOf_userRole, removeModuleToIgnore_absent _ M fm S σ _ hX]
    simp only [Option.some_bind]
    exact hrun

/-! ## An enable request after a click -/

theorem updateModulesOf_upToDate (slot : Slot) (M : List QStandardItem)
    (fm : qSlicerAbstractModuleFactoryManager) (S : List String) (σ : String → CheckState)
    (L : List String) (ha : Addressable M)
    (hL : ∀ n ∈ L, n ∈ M.map QStandardItem.userRole ∧ (n ∈ S ∨ σ n = CheckState.Checked)) :
    updateModulesOf slot (viewState M fm S σ) L = some (viewState M fm S σ) := by
  induction L with
  | nil => rfl
  | cons n rest ih =>
    simp only [updateModulesOf]
    rw [updateModule_upToDate slot M fm S σ n ha (hL n (List.mem_cons_self _ _)).1
      (hL n (List.mem_cons_self _ _)).2]
    simp only [Option.some_bind]
    exact ih (fun m hm => hL m (List.mem_cons_of_mem _ hm))

/-- Delivery of `modulesToIgnoreChanged` on a view whose entries of registered and
ignored names are up to date changes nothing. -/
theorem updateModules_settled (slot : Slot) (M : List QStandardItem)
    (fm : qSlicerAbstractModuleFactoryManager) (S : List String) (σ : String → CheckState)
    (hc : Covered M fm) (hS : ∀ m ∈ S, m ∈ M.map QStandardItem.userRole)
    (hs : Settled fm S σ) :
    updateModules slot (viewState M fm S σ) = some (viewState M fm S σ) := by
  apply updateModulesOf_upToDate slot M fm S σ _ hc.addressable
  intro n hn
  refine ⟨modules_withIgnore_subset M fm S hc hS n hn, ?_⟩
  by_cases hnS : n ∈ S
  · exact Or.inl hnS
  · exact Or.inr (hs n (((mem_modules_withIgnore fm S n).mp hn).resolve_right hnS) hnS)

theorem toggledState_get (M : List QStandardItem) (fm : qSlicerAbstractModuleFactoryManager)
    (S : List String) (σ : String → CheckState) (r : Nat) (item0 : QStandardItem)
    (c : CheckState) (hget : M[r]? = some item0) :
    (toggledState M fm S σ r item0 c).ModulesListModel[r]?
      = some { entryOf fm S σ item0 with checkState := c } := by
  have hlt : r < M.length := (List.getElem?_eq_some_iff.mp hget).1
  simp only [toggledState]
  rw [List.getElem?_set_self (by simpa [viewState] using hlt)]

theorem settled_remove {fm : qSlicerAbstractModuleFactoryManager} {S : List String}
    {σ : String → CheckState} (hs : Settled fm S σ) (x : String) :
    Settled fm (S.filter (fun m => decide (m ≠ x))) (Function.update σ x CheckState.Checked) := by
  intro n hl hn
  by_cases hnx : n = x
  · subst hnx; simp
  · rw [Function.update_noteq hnx]
    exact hs n hl (fun h => hn ((mem_filter_ne S x n).mpr ⟨h, hnx⟩))

theorem removeModuleToIgnore_toggled (slot : Slot) (M : List QStandardItem)
    (fm : qSlicerAbstractModuleFactoryManager) (S : List String) (σ : String → CheckState)
    (r : Nat) (item0 : QStandardItem) (hc : Covered M fm) (hget : M[r]? = some item0)
    (hS : ∀ m ∈ S, m ∈ M.map QStandardItem.userRole) (hs : Settled fm S σ) :
    removeModuleToIgnore slot (toggledState M fm S σ r item0 CheckState.Checked) item0.userRole
      = some (viewState M fm (S.filter (fun m => decide (m ≠ item0.userRole)))
          (Function.update σ item0.userRole CheckState.Checked)) := by
  have hnot : item0.userRole ∉ S.filter (fun m => decide (m ≠ item0.userRole)) :=
    fun h => ((mem_filter_ne S _ _).mp h).2 rfl
  have hmodel := viewState_model_set M fm S (S.filter (fun m => decide (m ≠ item0.userRole))) σ
    (Function.update σ item0.userRole CheckState.Checked) r item0 CheckState.Checked hget
    hc.addressable (by simp [shownState, hnot])
    (fun it _ hne => by
      simp only [shownState, mem_filter_ne, Function.update_noteq hne]
      simp [hne])
  simp only [removeModuleToIgnore, setModulesToIgnore]
  have hS0 : (toggledState M fm S σ r item0 CheckState.Checked).FactoryManager.modulesToIgnore
      = S := rfl
  rw [hS0]
  by_cases hEq : S.filter (fun m => decide (m ≠ item0.userRole)) = S
  · rw [if_pos hEq]
    congr 1
    show (⟨_, withIgnore fm S⟩ : qSlicerModulesListViewPrivate) = _
    rw [hmodel, hEq]
    rfl
  · rw [if_neg hEq]
    show updateModules slot
      ⟨(viewState M fm S σ).ModulesListModel.set r
          { entryOf fm S σ item0 with checkState := CheckState.Checked },
        withIgnore fm (S.filter (fun m => decide (m ≠ item0.userRole)))⟩ = _
    rw [hmodel]
    exact updateModules_settled slot M fm _ _ hc
      (fun m hm => hS m ((mem_filter_ne S _ m).mp hm).1) (settled_remove hs _)

theorem EnablePost.result {M : List QStandardItem} {fm : qSlicerAbstractModuleFactoryManager}
    {S S' : List String} {σ σ' : String → CheckState} {X : String}
    (hs : Settled fm S σ)
    (hpost : EnablePost M fm (S.filter (fun m => decide (m ≠ X)))
      (Function.update σ X CheckState.Checked) S' σ' X) :
    EnableResult fm S σ S' σ' X := by
  have hs0 := settled_remove hs X
  have hX0 : X ∉ S.filter (fun m => decide (m ≠ X)) := fun h => ((mem_filter_ne S _ _).mp h).2 rfl
  have hsub0 : (S.filter (fun m => decide (m ≠ X))).Sublist S := List.filter_sublist S
  have hchecked : σ' X = CheckState.Checked := hpost.step.keep X hX0 (by simp)
  refine ⟨hpost.step.sub.trans hsub0, fun h => hX0 (hpost.step.sub.subset h), ?_, hpost.deps,
    ?_, ?_, hchecked, ?_, ?_⟩
  · intro m hm hm'
    by_cases hmx : m = X
    · rw [hmx]; exact Relation.ReflTransGen.refl
    · obtain ⟨n, hn, hreach⟩ := hpost.step.frame m ((mem_filter_ne S X m).mpr ⟨hm, hmx⟩) hm'
      rcases hn with hn | ⟨hl, hn0, hnu⟩
      · rw [← hn]; exact hreach
      · rw [hs0 n hl hn0] at hnu
        cases hnu
  · intro m hm hm' hl
    by_cases hmx : m = X
    · rw [hmx]; exact hpost.deps
    · have hm0 : m ∈ S.filter (fun m => decide (m ≠ X)) := (mem_filter_ne S X m).mpr ⟨hm, hmx⟩
      rcases hpost.step.fresh m hm' (hpost.step.removedChecked m hm0 hm' hl) with ⟨h, _⟩ | h
      · exact absurd hm0 h
      · exact h
  · intro n hl hn'
    by_cases hn0 : n ∈ S.filter (fun m => decide (m ≠ X))
    · exact hpost.step.removedChecked n hn0 hn' hl
    · exact hpost.step.keep n hn0 (hs0 n hl hn0)
  · intro n hn hcn
    by_cases hnx : n = X
    · rw [hnx]; exact hchecked
    · apply hpost.step.keep n (fun h => hn (hsub0.subset h))
      rw [Function.update_noteq hnx]; exact hcn
  · intro n hn hl hnx
    rw [hpost.step.still n (fun h => hn (hsub0.subset h)) hl, Function.update_noteq hnx]

/-- An enable request (`onItemChanged` for an entry whose box has just been
checked): it returns, and the ignore set and the entries it leaves are described by
`EnableResult`. -/
theorem enable_request_spec (M : List QStandardItem) (fm : qSlicerAbstractModuleFactoryManager)
    (hc : Covered M fm) (S : List String) (σ : String → CheckState) (r : Nat)
    (item0 : QStandardItem) (hget : M[r]? = some item0)
    (hS : ∀ m ∈ S, m ∈ M.map QStandardItem.userRole) (hs : Settled fm S σ)
    (n : Nat) (hlen : M.length < n) :
    ∃ S' σ', onItemChanged n (toggledState M fm S σ r item0 CheckState.Checked) r
        = some (viewState M fm S' σ') ∧ EnableResult fm S σ S' σ' item0.userRole := by
  obtain ⟨k, rfl⟩ : ∃ k, n = k + 1 := ⟨n - 1, by omega⟩
  obtain ⟨S', σ', hrun, hpost⟩ := enable_dependencies_spec (onItemChanged k) M fm k hc
    (onItemChanged_enableSlot M fm hc k) (S.filter (fun m => decide (m ≠ item0.userRole)))
    (Function.update σ item0.userRole CheckState.Checked) item0.userRole
    (fun m hm => hS m ((mem_filter_ne S _ m).mp hm).1)
    (by have := uncheckedEntries_le M (S.filter (fun m => decide (m ≠ item0.userRole)))
          (Function.update σ item0.userRole CheckState.Checked); omega)
  refine ⟨S', σ', ?_, hpost.result hs⟩
  simp only [onItemChanged, onItemChangedBody, toggledState_get M fm S σ r item0 _ hget, if_true,
    entryOf_userRole]
  rw [removeModuleToIgnore_toggled (onItemChanged k) M fm S σ r item0 hc hget hS hs]
  simp only [Option.some_bind]
  exact hrun

/-! ## The cascade of a disable request -/

theorem enabledEntries_le (M : List QStandardItem) (S : List String) :
    enabledEntries M S ≤ M.length := List.length_filter_le _ _

theorem enabledEntries_mono (M : List QStandardItem) (S S' : List String)
    (h : ∀ m ∈ S, m ∈ S') : enabledEntries M S' ≤ enabledEntries M S := by
  apply filter_length_mono
  intro a ha
  simp only [decide_eq_true_eq] at ha ⊢
  exact fun hs => ha (h _ hs)

theorem enabledEntries_append_lt (M : List QStandardItem) (S : List String)
    (item0 : QStandardItem) (hmem : item0 ∈ M) (hx : item0.userRole ∉ S) :
    enabledEntries M (S ++ [item0.userRole]) < enabledEntries M S := by
  apply filter_length_lt _ _ _ _ item0 hmem
  · simpa using hx
  · simp
  · intro a ha
    simp only [decide_eq_true_eq, List.mem_append, not_or] at ha ⊢
    exact ha.1

theorem mem_dependentModules (fm : qSlicerAbstractModuleFactoryManager) (m q : String) :
    q ∈ dependentModules fm m ↔ q ∈ fm.registeredModuleNames ∧ m ∈ dependenciesOf fm q := by
  simp [dependentModules, List.mem_filter]

theorem instance_of_dependency {fm : qSlicerAbstractModuleFactoryManager} {m q : String}
    (h : m ∈ dependenciesOf fm q) : moduleInstance fm q ≠ none := by
  intro hn
  rw [dependenciesOf_eq_nil_of_none hn] at h
  simp at h

theorem settled_mono {fm : qSlicerAbstractModuleFactoryManager} {S S' : List String}
    {σ : String → CheckState} (hs : Settled fm S σ) (h : ∀ m ∈ S, m ∈ S') : Settled fm S' σ :=
  fun n hl hn => hs n hl (fun hnS => hn (h n hnS))

theorem entryOf_refreshed_stale (fm : qSlicerAbstractModuleFactoryManager) (S S1 : List String)
    (σ : String → CheckState) (it : QStandardItem)
    (hiff : it.userRole ∈ S1 ↔ it.userRole ∈ S)
    (h : it.userRole ∈ S ∨ σ it.userRole = CheckState.Checked) :
    refreshed (withIgnore fm S1) (entryOf fm S σ it) = entryOf fm S σ it := by
  have hcs : checkStateOf (withIgnore fm S1) it.userRole = shownState S σ it.userRole := by
    by_cases hm : it.userRole ∈ S
    · rw [checkStateOf_of_mem fm S1 _ (hiff.mpr hm), shownState_of_mem σ hm]
    · rw [checkStateOf_of_not_mem fm S1 _ (fun h => hm (hiff.mp h)), shownState_of_not_mem σ hm]
      exact (h.resolve_left hm).symm
  simp only [entryOf, refreshed, hcs]
  rfl

/-- Refreshing the checked entry of a module that is in the ignore set of the
registry unchecks its box, which runs the slot. -/
theorem updateItem_uncheck (slot : Slot) (M : List QStandardItem)
    (fm : qSlicerAbstractModuleFactoryManager) (S S1 S2 : List String)
    (σ : String → CheckState) (r : Nat) (item0 : QStandardItem) (hget : M[r]? = some item0)
    (ha : Addressable M) (hS : item0.userRole ∉ S)
    (hσ : σ item0.userRole = CheckState.Checked) (hS1 : item0.userRole ∈ S1)
    (hiff : ∀ it ∈ M, it.userRole ≠ item0.userRole → (it.userRole ∈ S1 ↔ it.userRole ∈ S))
    (hslot : slot (viewState M fm S1 σ) r = some (viewState M fm S2 σ)) :
    updateItem slot (staleView M fm S σ S1) r = some (viewState M fm S2 σ) := by
  have hg : (staleView M fm S σ S1).ModulesListModel[r]?
      = some (entryOf fm S σ item0) := viewState_get M fm S σ r item0 hget
  have hg2 := viewState_get M fm S2 σ r item0 hget
  have hmodel := viewState_model_set M fm S S1 σ σ r item0
    CheckState.Unchecked hget ha (shownState_of_mem σ hS1)
    (fun it hit hne => by simp only [shownState, hiff it hit hne])
  have hcs : checkStateOf (staleView M fm S σ S1).FactoryManager
      (entryOf fm S σ item0).userRole = CheckState.Unchecked :=
    checkStateOf_of_mem fm _ _ hS1
  simp only [updateItem, hg]
  rw [setItemData_same slot (staleView M fm S σ S1) r _ _ hg rfl]
  simp only [Option.some_bind]
  rw [setItemData_same slot (staleView M fm S σ S1) r _ _ hg rfl]
  simp only [Option.some_bind]
  rw [setItemData_changed slot (staleView M fm S σ S1) r _ _ hg]
  · rw [hcs]
    simp only [] at hmodel
    show (slot ⟨(viewState M fm S σ).ModulesListModel.set r _, withIgnore fm S1⟩ r).bind _ = _
    rw [hmodel]
    show (slot (viewState M fm S1 σ) r).bind _ = _
    rw [hslot]
    simp only [Option.some_bind]
    rw [setItemData_same slot (viewState M fm S2 σ) r _ _ hg2 rfl]
    simp only [Option.some_bind]
    rw [setItemData_same slot (viewState M fm S2 σ) r _ _ hg2 rfl]
  · intro hEq
    have h1 := congrArg QStandardItem.checkState hEq
    have h2 : (entryOf fm S σ item0).checkState = CheckState.Checked := by
      show shownState S σ item0.userRole = _
      rw [shownState_of_not_mem σ hS, hσ]
    simp only [] at h1
    rw [hcs, h2] at h1
    cases h1

/-- Delivery of `modulesToIgnoreChanged` after the name of row `r` was put into the
ignore set: its entry is unchecked, which runs the slot, and the other entries are
up to date. -/
theorem updateModulesOf_disable (slot : Slot) (M : List QStandardItem)
    (fm : qSlicerAbstractModuleFactoryManager) (S S2 : List String) (σ : String → CheckState)
    (r : Nat) (item0 : QStandardItem) (L : List String)
    (hget : M[r]? = some item0) (ha : Addressable M)
    (hL : ∀ n ∈ L, n ∈ M.map QStandardItem.userRole ∧
      (n ∈ S ∨ n = item0.userRole ∨ σ n = CheckState.Checked))
    (hS : item0.userRole ∉ S) (hσ : σ item0.userRole = CheckState.Checked)
    (hslot : slot (viewState M fm (S ++ [item0.userRole]) σ) r = some (viewState M fm S2 σ))
    (hsup : ∀ m ∈ S ++ [item0.userRole], m ∈ S2)
    (hx : item0.userRole ∈ L) :
    updateModulesOf slot (staleView M fm S σ (S ++ [item0.userRole])) L
      = some (viewState M fm S2 σ) := by
  induction L with
  | nil => simp at hx
  | cons n rest ih =>
    obtain ⟨row, it0, hfind, hg0, hname0⟩ := ha.find (hL n (List.mem_cons_self _ _)).1
    have hfind' : moduleItem (staleView M fm S σ (S ++ [item0.userRole])).ModulesListModel n
        = some row := by
      show moduleItem (viewState M fm S σ).ModulesListModel n = some row
      rw [moduleItem_congr _ M n (viewState_names M fm S σ)]; exact hfind
    simp only [updateModulesOf, updateModule, hfind']
    by_cases hnx : n = item0.userRole
    · have hrow : row = r := ha.row_unique hg0 hget (by rw [hname0, hnx])
      subst hrow
      rw [updateItem_uncheck slot M fm S _ S2 σ row item0 hget ha hS hσ (by simp)
        (fun it _ hne => by simp [hne]) hslot]
      simp only [Option.some_bind]
      apply updateModulesOf_upToDate slot M fm S2 σ rest ha
      intro m hm
      obtain ⟨h1, h2⟩ := hL m (List.mem_cons_of_mem _ hm)
      refine ⟨h1, ?_⟩
      rcases h2 with h | h | h
      · exact Or.inl (hsup m (List.mem_append_left _ h))
      · exact Or.inl (hsup m (by simp [h]))
      · exact Or.inr h
    · have hg : (staleView M fm S σ (S ++ [item0.userRole])).ModulesListModel[row]?
          = some (entryOf fm S σ it0) := viewState_get M fm S σ row it0 hg0
      have hr : refreshed (staleView M fm S σ (S ++ [item0.userRole])).FactoryManager
          (entryOf fm S σ it0) = entryOf fm S σ it0 := by
        apply entryOf_refreshed_stale
        · rw [hname0]
          simp [hnx]
        · rw [hname0]
          rcases (hL n (List.mem_cons_self _ _)).2 with h | h | h
          · exact Or.inl h
          · exact absurd h hnx
          · exact Or.inr h
      rw [updateItem_of_refreshed slot _ row _ hg hr]
      simp only [Option.some_bind]
      apply ih (fun m hm => hL m (List.mem_cons_of_mem _ hm))
      rcases List.mem_cons.mp hx with h | h
      · exact absurd h.symm hnx
      · exact h

theorem addModuleToIgnore_present (slot : Slot) (M : List QStandardItem)
    (fm : qSlicerAbstractModuleFactoryManager) (S : List String) (σ : String → CheckState)
    (x : String) (hx : x ∈ S) :
    addModuleToIgnore slot (viewState M fm S σ) x = some (viewState M fm S σ) := by
  simp only [addModuleToIgnore]
  have : (viewState M fm S σ).FactoryManager.modulesToIgnore = S := rfl
  rw [this, if_pos hx]

theorem append_singleton_ne (S : List String) (x : String) : S ++ [x] ≠ S := by
  intro h
  have := congrArg List.length h
  simp at this

theorem addModuleToIgnore_absent (slot : Slot) (M : List QStandardItem)
    (fm : qSlicerAbstractModuleFactoryManager) (S S2 : List String) (σ : String → CheckState)
    (r : Nat) (item0 : QStandardItem) (hc : Covered M fm) (hget : M[r]? = some item0)
    (hx : item0.userRole ∉ S) (hl : Listed fm item0.userRole) (hs : Settled fm S σ)
    (hS : ∀ m ∈ S, m ∈ M.map QStandardItem.userRole)
    (hslot : slot (viewState M fm (S ++ [item0.userRole]) σ) r = some (viewState M fm S2 σ))
    (hsup : ∀ m ∈ S ++ [item0.userRole], m ∈ S2) :
    addModuleToIgnore slot (viewState M fm S σ) item0.userRole = some (viewState M fm S2 σ) := by
  simp only [addModuleToIgnore, setModulesToIgnore]
  have hS0 : (viewState M fm S σ).FactoryManager.modulesToIgnore = S := rfl
  rw [hS0, if_neg hx, if_neg (append_singleton_ne S _)]
  show updateModulesOf slot (staleView M fm S σ (S ++ [item0.userRole]))
    (modules (some (withIgnore fm (S ++ [item0.userRole])))) = _
  have hmem : item0.userRole ∈ M.map QStandardItem.userRole :=
    List.mem_map.mpr ⟨item0, List.getElem?_mem hget, rfl⟩
  apply updateModulesOf_disable slot M fm S S2 σ r item0 _ hget hc.addressable _ hx
    (hs _ hl hx) hslot hsup
  · rw [mem_modules_withIgnore]
    exact Or.inr (by simp)
  · intro n hn
    rw [mem_modules_withIgnore] at hn
    rcases hn with h | h
    · refine ⟨hc.known n h, ?_⟩
      by_cases hnS : n ∈ S
      · exact Or.inl hnS
      · exact Or.inr (Or.inr (hs n h hnS))
    · rcases List.mem_append.mp h with h | h
      · exact ⟨hS n h, Or.inl h⟩
      · rw [List.mem_singleton.mp h]
        exact ⟨hmem, Or.inr (Or.inl rfl)⟩

theorem addModulesToIgnore_spec (slot : Slot) (M : List QStandardItem)
    (fm : qSlicerAbstractModuleFactoryManager) (k : Nat) (hc : Covered M fm)
    (hslot : DisableSlot slot M fm k) (σ : String → CheckState) (dms : List String) :
    ∀ S : List String, enabledEntries M S ≤ k → Settled fm S σ →
      (∀ m ∈ S, m ∈ M.map QStandardItem.userRole) →
      (∀ y ∈ dms, y ∈ fm.registeredModuleNames ∧ moduleInstance fm y ≠ none) →
      ∃ S', addModulesToIgnore slot (viewState M fm S σ) dms = some (viewState M fm S' σ) ∧
        (∀ m ∈ S, m ∈ S') ∧ (∀ y ∈ dms, y ∈ S') ∧
        (∀ m ∈ S', m ∉ S → m ∈ fm.registeredModuleNames ∧ ∃ y ∈ dms, Reaches fm m y) ∧
        (∀ m ∈ S', m ∉ S → ∀ q ∈ dependentModules fm m, q ∈ S') := by
  induction dms with
  | nil =>
    intro S _ _ _ _
    exact ⟨S, rfl, fun m hm => hm, by simp, fun m hm hm' => absurd hm hm',
      fun m hm hm' => absurd hm hm'⟩
  | cons y rest ih =>
    intro S hcount hs hS hdms
    have hyreg := (hdms y (List.mem_cons_self _ _)).1
    have hyinst := (hdms y (List.mem_cons_self _ _)).2
    have hrest : ∀ z ∈ rest, z ∈ fm.registeredModuleNames ∧ moduleInstance fm z ≠ none :=
      fun z hz => hdms z (List.mem_cons_of_mem _ hz)
    by_cases hy : y ∈ S
    · obtain ⟨S3, hrun3, hsup3, hdms3, hframe3, hclosed3⟩ := ih S hcount hs hS hrest
      refine ⟨S3, ?_, hsup3, ?_, ?_, hclosed3⟩
      · simp only [addModulesToIgnore]
        rw [addModuleToIgnore_present slot M fm S σ y hy]
        simpa using hrun3
      · intro z hz
        rcases List.mem_cons.mp hz with h | h
        · rw [h]; exact hsup3 _ hy
        · exact hdms3 z h
      · intro m hm hm'
        obtain ⟨hreg, z, hz, hreach⟩ := hframe3 m hm hm'
        exact ⟨hreg, z, List.mem_cons_of_mem _ hz, hreach⟩
    · obtain ⟨item0, hmem0, hname0⟩ := List.mem_map.mp (hc.known y (Or.inl hyreg))
      obtain ⟨r, hget⟩ := List.getElem?_of_mem hmem0
      subst hname0
      have hS1 : ∀ m ∈ S ++ [item0.userRole], m ∈ M.map QStandardItem.userRole := by
        intro m hm
        rcases List.mem_append.mp hm with h | h
        · exact hS m h
        · rw [List.mem_singleton.mp h]; exact List.mem_map.mpr ⟨item0, hmem0, rfl⟩
      have hlt := enabledEntries_append_lt M S item0 hmem0 hy
      obtain ⟨S2, hrun, hpost⟩ := hslot (S ++ [item0.userRole]) σ r item0 hget (by simp)
        (settled_mono hs (fun m hm => List.mem_append_left _ hm)) hS1 (by omega)
      have hS2 : ∀ m ∈ S2, m ∈ M.map QStandardItem.userRole := by
        intro m hm
        rcases hpost.grown m hm with h | h | h
        · exact hS1 m h
        · rw [h]; exact List.mem_map.mpr ⟨item0, hmem0, rfl⟩
        · exact hc.known m (Or.inl h)
      have hsup2 : ∀ m ∈ S, m ∈ S2 := fun m hm => hpost.sup m (List.mem_append_left _ hm)
      obtain ⟨S3, hrun3, hsup3, hdms3, hframe3, hclosed3⟩ := ih S2
        (by have := enabledEntries_mono M (S ++ [item0.userRole]) S2 hpost.sup; omega)
        (settled_mono hs hsup2) hS2 hrest
      refine ⟨S3, ?_, fun m hm => hsup3 m (hsup2 m hm), ?_, ?_, ?_⟩
      · simp only [addModulesToIgnore]
        rw [addModuleToIgnore_absent slot M fm S S2 σ r item0 hc hget hy (Or.inl hyreg) hs hS
          hrun hpost.sup]
        simpa using hrun3
      · intro z hz
        rcases List.mem_cons.mp hz with h | h
        · rw [h]; exact hsup3 _ hpost.self
        · exact hdms3 z h
      · intro m hm hm'
        by_cases hm2 : m ∈ S2
        · by_cases hmy : m = item0.userRole
          · rw [hmy]
            exact ⟨hyreg, _, List.mem_cons_self _ _, Relation.ReflTransGen.refl⟩
          · have hm1 : m ∉ S ++ [item0.userRole] := by
              simp only [List.mem_append, List.mem_singleton, not_or]
              exact ⟨hm', hmy⟩
            refine ⟨?_, _, List.mem_cons_self _ _, hpost.frame m hm2 hm1⟩
            rcases hpost.grown m hm2 with h | h | h
            · exact absurd h hm1
            · exact absurd h hmy
            · exact h
        · obtain ⟨hreg, z, hz, hreach⟩ := hframe3 m hm hm2
          exact ⟨hreg, z, List.mem_cons_of_mem _ hz, hreach⟩
      · intro m hm hm'
        by_cases hm2 : m ∈ S2
        · intro q hq
          apply hsup3
          by_cases hmy : m = item0.userRole
          · exact hpost.closed m (Or.inl hmy) (fun _ => hyinst) q hq
          · have hm1 : m ∉ S ++ [item0.userRole] := by
              simp only [List.mem_append, List.mem_singleton, not_or]
              exact ⟨hm', hmy⟩
            exact hpost.closed m (Or.inr ⟨hm2, hm1⟩) (fun _ => hyinst) q hq
        · exact hclosed3 m hm hm2

/-- Continuation of a disable request once the requested name is in the ignore
set: the loop over the dependent modules, under the guard `if (module)`. -/
theorem disable_dependents_spec (slot : Slot) (M : List QStandardItem)
    (fm : qSlicerAbstractModuleFactoryManager) (k : Nat) (hc : Covered M fm)
    (hslot : DisableSlot slot M fm k) (S : List String) (σ : String → CheckState) (X : String)
    (hX : X ∈ S) (hcount : enabledEntries M S ≤ k) (hs : Settled fm S σ)
    (hS : ∀ m ∈ S, m ∈ M.map QStandardItem.userRole) :
    ∃ S', (match moduleInstance fm X with
        | some _ => addModulesToIgnore slot (viewState M fm S σ) (dependentModules fm X)
        | none => some (viewState M fm S σ)) = some (viewState M fm S' σ) ∧
      DisablePost fm S S' X := by
  cases hinst : moduleInstance fm X with
  | none =>
    refine ⟨S, rfl, fun m hm => hm, hX, fun m hm => Or.inl hm, fun m hm hm' => absurd hm hm', ?_⟩
    rintro m (hm | ⟨hm, hm'⟩) hi
    · exact absurd hinst (hi hm)
    · exact absurd hm hm'
  | some mod =>
    have hdms : ∀ y ∈ dependentModules fm X,
        y ∈ fm.registeredModuleNames ∧ moduleInstance fm y ≠ none := by
      intro y hy
      rw [mem_dependentModules] at hy
      exact ⟨hy.1, instance_of_dependency hy.2⟩
    obtain ⟨S', hrun, hsup, hin, hframe, hclosed⟩ :=
      addModulesToIgnore_spec slot M fm k hc hslot σ (dependentModules fm X) S hcount hs hS hdms
    refine ⟨S', hrun, hsup, hsup X hX, ?_, ?_, ?_⟩
    · intro m hm
      by_cases hmS : m ∈ S
      · exact Or.inl hmS
      · exact Or.inr (Or.inr (hframe m hm hmS).1)
    · intro m hm hmS
      obtain ⟨_, y, hy, hreach⟩ := hframe m hm hmS
      have hdep : DependsOn fm y X := ((mem_dependentModules fm X y).mp hy).2
      exact Relation.ReflTransGen.tail hreach hdep
    · rintro m (hm | ⟨hm, hm'⟩) _
      · rw [hm]; exact hin
      · exact hclosed m hm hm'

theorem onItemChanged_disableSlot (M : List QStandardItem)
    (fm : qSlicerAbstractModuleFactoryManager) (hc : Covered M fm) :
    ∀ n, DisableSlot (onItemChanged n) M fm n := by
  intro n
  induction n with
  | zero => intro S σ r item0 _ _ _ _ hlen; exact absurd hlen (Nat.not_lt_zero _)
  | succ n ih =>
    intro S σ r item0 hget hX hs hS hcount
    have hg := viewState_get M fm S σ r item0 hget
    have hcs : (entryOf fm S σ item0).checkState = CheckState.Unchecked :=
      shownState_of_mem σ hX
    obtain ⟨S', hrun, hpost⟩ := disable_dependents_spec (onItemChanged n) M fm n hc ih S σ
      item0.userRole hX (by omega) hs hS
    refine ⟨S', ?_, hpost⟩
    simp only [onItemChanged, onItemChangedBody, hg, hcs, entryOf_userRole]
    rw [if_neg (by decide), addModuleToIgnore_present _ M fm S σ _ hX]
    simp only [Option.some_bind]
    exact hrun

theorem mem_ignoreWith (S : List String) (x m : String) :
    m ∈ ignoreWith S x ↔ m ∈ S ∨ m = x := by
  simp only [ignoreWith]
  split
  · rename_i h
    constructor
    · exact fun hm => Or.inl hm
    · rintro (hm | hm)
      · exact hm
      · exact hm ▸ h
  · simp

theorem addModuleToIgnore_toggled (slot : Slot) (M : List QStandardItem)
    (fm : qSlicerAbstractModuleFactoryManager) (S : List String) (σ : String → CheckState)
    (r : Nat) (item0 : QStandardItem) (hc : Covered M fm) (hget : M[r]? = some item0)
    (hS : ∀ m ∈ S, m ∈ M.map QStandardItem.userRole) (hs : Settled fm S σ) :
    addModuleToIgnore slot (toggledState M fm S σ r item0 CheckState.Unchecked) item0.userRole
      = some (viewState M fm (ignoreWith S item0.userRole) σ) := by
  have hin : item0.userRole ∈ ignoreWith S item0.userRole :=
    (mem_ignoreWith S _ _).mpr (Or.inr rfl)
  have hmodel := viewState_model_set M fm S (ignoreWith S item0.userRole) σ σ r item0
    CheckState.Unchecked hget hc.addressable (shownState_of_mem σ hin)
    (fun it _ hne => by simp [shownState, mem_ignoreWith, hne])
  have hS1 : ∀ m ∈ ignoreWith S item0.userRole, m ∈ M.map QStandardItem.userRole := by
    intro m hm
    rcases (mem_ignoreWith S _ m).mp hm with h | h
    · exact hS m h
    · rw [h]; exact List.mem_map.mpr ⟨item0, List.getElem?_mem hget, rfl⟩
  simp only [addModuleToIgnore, setModulesToIgnore]
  have hS0 : (toggledState M fm S σ r item0 CheckState.Unchecked).FactoryManager.modulesToIgnore
      = S := rfl
  rw [hS0]
  by_cases hx : item0.userRole ∈ S
  · rw [if_pos hx]
    have he : ignoreWith S item0.userRole = S := by simp [ignoreWith, hx]
    congr 1
    show (⟨_, withIgnore fm S⟩ : qSlicerModulesListViewPrivate) = _
    rw [hmodel, he]
    rfl
  · rw [if_neg hx, if_neg (append_singleton_ne S _)]
    have he : ignoreWith S item0.userRole = S ++ [item0.userRole] := by simp [ignoreWith, hx]
    rw [he] at hmodel hS1 ⊢
    show updateModules slot
      ⟨(viewState M fm S σ).ModulesListModel.set r
          { entryOf fm S σ item0 with checkState := CheckState.Unchecked },
        withIgnore fm (S ++ [item0.userRole])⟩ = _
    rw [hmodel]
    exact updateModules_settled slot M fm _ σ hc hS1
      (settled_mono hs (fun m hm => List.mem_append_left _ hm))

/-- A disable request (`onItemChanged` for an entry whose box has just been
unchecked): it returns, and the new ignore set is described by `DisablePost`. -/
theorem disable_request_spec (M : List QStandardItem) (fm : qSlicerAbstractModuleFactoryManager)
    (hc : Covered M fm) (S : List String) (σ : String → CheckState) (r : Nat)
    (item0 : QStandardItem) (hget : M[r]? = some item0)
    (hS : ∀ m ∈ S, m ∈ M.map QStandardItem.userRole) (hs : Settled fm S σ)
    (n : Nat) (hcount : M.length < n) :
    ∃ S', onItemChanged n (toggledState M fm S σ r item0 CheckState.Unchecked) r
        = some (viewState M fm S' σ) ∧ DisablePost fm S S' item0.userRole := by
  obtain ⟨k, rfl⟩ : ∃ k, n = k + 1 := ⟨n - 1, by omega⟩
  have hin : item0.userRole ∈ ignoreWith S item0.userRole :=
    (mem_ignoreWith S _ _).mpr (Or.inr rfl)
  have hsup1 : ∀ m ∈ S, m ∈ ignoreWith S item0.userRole :=
    fun m hm => (mem_ignoreWith S _ m).mpr (Or.inl hm)
  have hS1 : ∀ m ∈ ignoreWith S item0.userRole, m ∈ M.map QStandardItem.userRole := by
    intro m hm
    rcases (mem_ignoreWith S _ m).mp hm with h | h
    · exact hS m h
    · rw [h]; exact List.mem_map.mpr ⟨item0, List.getElem?_mem hget, rfl⟩
  obtain ⟨S', hrun, hpost⟩ := disable_dependents_spec (onItemChanged k) M fm k hc
    (onItemChanged_disableSlot M fm hc k) (ignoreWith S item0.userRole) σ item0.userRole hin
    (by have := enabledEntries_le M (ignoreWith S item0.userRole); omega)
    (settled_mono hs hsup1) hS1
  refine ⟨S', ?_, fun m hm => hpost.sup m (hsup1 m hm), hpost.self, ?_, ?_, ?_⟩
  · simp only [onItemChanged, onItemChangedBody, toggledState_get M fm S σ r item0 _ hget,
      entryOf_userRole]
    rw [if_neg (by decide),
      addModuleToIgnore_toggled (onItemChanged k) M fm S σ r item0 hc hget hS hs]
    simp only [Option.some_bind]
    exact hrun
  · intro m hm
    rcases hpost.grown m hm with h | h | h
    · rcases (mem_ignoreWith S _ m).mp h with h' | h'
      · exact Or.inl h'
      · exact Or.inr (Or.inl h')
    · exact Or.inr (Or.inl h)
    · exact Or.inr (Or.inr h)
  · intro m hm hmS
    by_cases hmx : m = item0.userRole
    · rw [hmx]; exact Relation.ReflTransGen.refl
    · apply hpost.frame m hm
      rw [mem_ignoreWith]
      exact fun h => h.elim hmS hmx
  · rintro m (hm | ⟨hm, hmS⟩) hi
    · exact hpost.closed m (Or.inl hm) hi
    · by_cases hmx : m = item0.userRole
      · exact hpost.closed m (Or.inl hmx) hi
      · refine hpost.closed m (Or.inr ⟨hm, ?_⟩) hi
        rw [mem_ignoreWith]
        exact fun h => h.elim hmS hmx

/-! ## Reconciled views and the dependency invariant -/

theorem Reconciled.addressable {d : qSlicerModulesListViewPrivate} (h : Reconciled d) :
    Addressable d.ModulesListModel := h.1

theorem Reconciled.known {d : qSlicerModulesListViewPrivate} (h : Reconciled d) :
    ∀ n ∈ knownNames d.FactoryManager, n ∈ d.ModulesListModel.map QStandardItem.userRole := h.2.1

theorem Reconciled.upToDate {d : qSlicerModulesListViewPrivate} (h : Reconciled d) :
    ∀ item ∈ d.ModulesListModel, UpToDate d.FactoryManager item := h.2.2

theorem covered_of_known {M : List QStandardItem} {fm : qSlicerAbstractModuleFactoryManager}
    (ha : Addressable M) (hknown : ∀ n ∈ knownNames fm, n ∈ M.map QStandardItem.userRole) :
    Covered M fm :=
  ⟨ha, fun n hn => hknown n (by
    simp only [knownNames, List.mem_append]
    rcases hn with hn | hn
    · exact Or.inl (Or.inl hn)
    · exact Or.inr hn)⟩

theorem ignore_covered_of_known {M : List QStandardItem}
    {fm : qSlicerAbstractModuleFactoryManager}
    (hknown : ∀ n ∈ knownNames fm, n ∈ M.map QStandardItem.userRole) :
    ∀ m ∈ fm.modulesToIgnore, m ∈ M.map QStandardItem.userRole :=
  fun m hm => hknown m (by
    simp only [knownNames, List.mem_append]
    exact Or.inl (Or.inr hm))

theorem Reconciled.covered {d : qSlicerModulesListViewPrivate} (h : Reconciled d) :
    Covered d.ModulesListModel d.FactoryManager := covered_of_known h.addressable h.known

theorem Reconciled.ignore_covered {d : qSlicerModulesListViewPrivate} (h : Reconciled d) :
    ∀ m ∈ d.FactoryManager.modulesToIgnore, m ∈ d.ModulesListModel.map QStandardItem.userRole :=
  ignore_covered_of_known h.known

theorem moduleInstance_mem {fm : qSlicerAbstractModuleFactoryManager} {n : String}
    {c : qSlicerAbstractCoreModule} (h : moduleInstance fm n = some c) :
    (n, c) ∈ fm.instances := by
  unfold moduleInstance at h
  cases hf : fm.instances.find? (fun p => p.1 == n) with
  | none => rw [hf] at h; cases h
  | some p =>
    rw [hf] at h
    have hp := List.find?_some hf
    have hmem := List.mem_of_find?_eq_some hf
    simp only [Option.some.injEq] at h
    have h1 : p.1 = n := by simpa using hp
    have : p = (n, c) := Prod.ext h1 h
    rw [← this]; exact hmem

/-- The dependency invariant in terms of all module names. -/
theorem consistentWith_iff (fm : qSlicerAbstractModuleFactoryManager) (S : List String) :
    ConsistentWith fm S ↔ ∀ m, m ∉ S → ∀ x ∈ dependenciesOf fm m, x ∉ S := by
  constructor
  · intro h m hm x hx
    cases hinst : moduleInstance fm m with
    | none =>
      rw [dependenciesOf_eq_nil_of_none hinst] at hx
      simp at hx
    | some c => exact h (m, c) (moduleInstance_mem hinst) hm x hx
  · intro h p _ hp
    exact h p.1 hp

theorem withIgnore_self (fm : qSlicerAbstractModuleFactoryManager) :
    withIgnore fm fm.modulesToIgnore = fm := by
  cases fm; rfl

theorem shownIn_of_get {model : List QStandardItem} (ha : Addressable model) {row : Nat}
    {item : QStandardItem} (hget : model[row]? = some item) :
    shownIn model item.userRole = item.checkState := by
  simp [shownIn, ha.row row item hget, hget]

/-- Check states that describe the entries of a view in which the entries other than
that of `X` are up to date. -/
theorem shownState_of_upToDate (M : List QStandardItem)
    (fm : qSlicerAbstractModuleFactoryManager) (X : String) (ha : Addressable M)
    (hothers : ∀ it ∈ M, it.userRole ≠ X → UpToDate fm it) :
    ∀ it ∈ M, it.userRole ≠ X →
      shownState fm.modulesToIgnore (Function.update (shownIn M) X CheckState.Checked)
        it.userRole = it.checkState := by
  intro it hit hne
  obtain ⟨row, hget⟩ := List.getElem?_of_mem hit
  by_cases hS : it.userRole ∈ fm.modulesToIgnore
  · rw [shownState_of_mem _ hS, (hothers it hit hne).2 (by
      simp only [knownNames, List.mem_append]
      exact Or.inl (Or.inr hS))]
    simp [checkStateOf, hS]
  · rw [shownState_of_not_mem _ hS, Function.update_noteq hne, shownIn_of_get ha hget]

theorem settled_of_upToDate (M : List QStandardItem) (fm : qSlicerAbstractModuleFactoryManager)
    (X : String) (hc : Covered M fm) (hothers : ∀ it ∈ M, it.userRole ≠ X → UpToDate fm it) :
    Settled fm fm.modulesToIgnore (Function.update (shownIn M) X CheckState.Checked) := by
  intro n hl hn
  by_cases hnx : n = X
  · rw [hnx]; simp
  · obtain ⟨it, hit, hname⟩ := List.mem_map.mp (hc.known n hl)
    obtain ⟨row, hget⟩ := List.getElem?_of_mem hit
    subst hname
    rw [Function.update_noteq hnx, shownIn_of_get hc.addressable hget,
      (hothers it hit hnx).2 (by
        simp only [knownNames, List.mem_append]
        rcases hl with h | h
        · exact Or.inl (Or.inl h)
        · exact Or.inr h)]
    simp [checkStateOf, hn]

/-- A view in which every entry has the brush, text and tool tip that `updateItem`
writes and the entries other than that of row `row` have the check states given by
`σ`, with the check state of row `row` set to `c`. -/
theorem eq_toggledState (d : qSlicerModulesListViewPrivate) (row : Nat) (item : QStandardItem)
    (c : CheckState) (σ : String → CheckState) (ha : Addressable d.ModulesListModel)
    (hget : d.ModulesListModel[row]? = some item)
    (hdisp : ∀ it ∈ d.ModulesListModel,
      { refreshed d.FactoryManager it with checkState := it.checkState } = it)
    (hσ : ∀ it ∈ d.ModulesListModel, it.userRole ≠ item.userRole →
      shownState d.FactoryManager.modulesToIgnore σ it.userRole = it.checkState) :
    ({ d with ModulesListModel := d.ModulesListModel.set row { item with checkState := c } } :
        qSlicerModulesListViewPrivate)
      = toggledState d.ModulesListModel d.FactoryManager d.FactoryManager.modulesToIgnore σ
          row item c := by
  cases d with
  | mk M fm =>
  simp only at ha hget hdisp hσ ⊢
  simp only [toggledState, withIgnore_self]
  congr 1
  apply List.ext_getElem?
  intro r
  by_cases hr : row = r
  · subst hr
    have hlt : row < M.length := (List.getElem?_eq_some_iff.mp hget).1
    rw [List.getElem?_set_self hlt, List.getElem?_set_self (by simpa [viewState] using hlt)]
    congr 1
    have := hdisp item (List.getElem?_mem hget)
    conv_lhs => rw [← this]
    rfl
  · rw [List.getElem?_set_ne hr, List.getElem?_set_ne hr]
    cases hg : M[r]? with
    | none => simp [viewState, hg]
    | some it =>
      rw [viewState_get M fm _ σ r it hg]
      congr 1
      have hne : it.userRole ≠ item.userRole := fun hn => hr (ha.row_unique hget hg hn.symm)
      have h1 := hdisp it (List.getElem?_mem hg)
      have h2 := hσ it (List.getElem?_mem hg) hne
      conv_lhs => rw [← h1]
      simp only [entryOf, h2]

theorem clicked_eq_toggledState {d : qSlicerModulesListViewPrivate} (h : Reconciled d)
    (row : Nat) (item : QStandardItem) (c : CheckState)
    (hget : d.ModulesListModel[row]? = some item) :
    clicked d row c = toggledState d.ModulesListModel d.FactoryManager
      d.FactoryManager.modulesToIgnore
      (Function.update (shownIn d.ModulesListModel) item.userRole CheckState.Checked)
      row item c := by
  simp only [clicked, hget]
  exact eq_toggledState d row item c _ h.addressable hget (fun it hit => (h.upToDate it hit).1)
    (shownState_of_upToDate _ _ _ h.addressable (fun it hit _ => h.upToDate it hit))

theorem Reconciled.settled {d : qSlicerModulesListViewPrivate} (h : Reconciled d) (X : String) :
    Settled d.FactoryManager d.FactoryManager.modulesToIgnore
      (Function.update (shownIn d.ModulesListModel) X CheckState.Checked) :=
  settled_of_upToDate _ _ X h.covered (fun it hit _ => h.upToDate it hit)

theorem reconciled_viewState (M : List QStandardItem)
    (fm : qSlicerAbstractModuleFactoryManager) (S : List String) (σ : String → CheckState)
    (hc : Covered M fm) (hS : ∀ m ∈ S, m ∈ M.map QStandardItem.userRole)
    (hs : Settled fm S σ) : Reconciled (viewState M fm S σ) := by
  refine ⟨viewState_addressable hc.addressable fm S σ, ?_, ?_⟩
  · intro n hn
    rw [viewState_names]
    simp only [viewState, knownNames, withIgnore, List.mem_append] at hn
    rcases hn with (h | h) | h
    · exact hc.known n (Or.inl h)
    · exact hS n h
    · exact hc.known n (Or.inr h)
  · intro item hi
    simp only [viewState, List.mem_map] at hi
    obtain ⟨it0, _, rfl⟩ := hi
    refine ⟨rfl, ?_⟩
    intro hk
    show shownState S σ it0.userRole = checkStateOf (withIgnore fm S) it0.userRole
    by_cases hm : it0.userRole ∈ S
    · rw [shownState_of_mem σ hm, checkStateOf_of_mem fm S _ hm]
    · rw [shownState_of_not_mem σ hm, checkStateOf_of_not_mem fm S _ hm]
      apply hs _ _ hm
      simp only [viewState, knownNames, withIgnore, List.mem_append, entryOf_userRole] at hk
      rcases hk with (h | h) | h
      · exact Or.inl h
      · exact absurd h hm
      · exact Or.inr h

/-- An enable request on a reconciled view, in the terms of the view. -/
theorem enable_request (d : qSlicerModulesListViewPrivate) (row : Nat) (item : QStandardItem)
    (fuel : Nat) (hr : Reconciled d)
    (hget : d.ModulesListModel[row]? = some item) (hfuel : d.ModulesListModel.length < fuel) :
    ∃ S' σ', onItemChanged fuel (clicked d row CheckState.Checked) row
        = some (viewState d.ModulesListModel d.FactoryManager S' σ') ∧
      EnableResult d.FactoryManager d.FactoryManager.modulesToIgnore
        (Function.update (shownIn d.ModulesListModel) item.userRole CheckState.Checked)
        S' σ' item.userRole := by
  rw [clicked_eq_toggledState hr row item _ hget]
  exact enable_request_spec d.ModulesListModel d.FactoryManager hr.covered _ _ row item hget
    hr.ignore_covered (hr.settled _) fuel hfuel

/-- A disable request on a reconciled view, in the terms of the view. -/
theorem disable_request (d : qSlicerModulesListViewPrivate) (row : Nat) (item : QStandardItem)
    (fuel : Nat) (hr : Reconciled d)
    (hget : d.ModulesListModel[row]? = some item) (hfuel : d.ModulesListModel.length < fuel) :
    ∃ S', onItemChanged fuel (clicked d row CheckState.Unchecked) row
        = some (viewState d.ModulesListModel d.FactoryManager S'
          (Function.update (shownIn d.ModulesListModel) item.userRole CheckState.Checked)) ∧
      DisablePost d.FactoryManager d.FactoryManager.modulesToIgnore S' item.userRole := by
  rw [clicked_eq_toggledState hr row item _ hget]
  exact disable_request_spec d.ModulesListModel d.FactoryManager hr.covered _ _ row item hget
    hr.ignore_covered (hr.settled _) fuel hfuel

theorem grown_covered {d : qSlicerModulesListViewPrivate} (hr : Reconciled d) {S' : List String}
    {item : QStandardItem} {row : Nat} (hget : d.ModulesListModel[row]? = some item)
    (hpost : DisablePost d.FactoryManager d.FactoryManager.modulesToIgnore S' item.userRole) :
    ∀ m ∈ S', m ∈ d.ModulesListModel.map QStandardItem.userRole := by
  intro m hm
  rcases hpost.grown m hm with h | h | h
  · exact hr.ignore_covered m h
  · rw [h]; exact List.mem_map.mpr ⟨item, List.getElem?_mem hget, rfl⟩
  · exact hr.covered.known m (Or.inl h)

theorem registered_of_dependency {fm : qSlicerAbstractModuleFactoryManager}
    (hi : InstancesRegistered fm) {m x : String} (hx : x ∈ dependenciesOf fm m) :
    m ∈ fm.registeredModuleNames := by
  cases hinst : moduleInstance fm m with
  | none =>
    rw [dependenciesOf_eq_nil_of_none hinst] at hx
    simp at hx
  | some c => exact hi (m, c) (moduleInstance_mem hinst)

theorem consistentWith_after_enable {fm : qSlicerAbstractModuleFactoryManager}
    {S S' : List String} {σ σ' : String → CheckState} {X : String}
    (hpost : EnableResult fm S σ S' σ' X) (hi : InstancesRegistered fm)
    (hcons : ConsistentWith fm S) : ConsistentWith fm S' := by
  rw [consistentWith_iff] at hcons ⊢
  intro m hm x hx hx'
  by_cases hmS : m ∈ S
  · exact hpost.closed m hmS hm (Or.inl (registered_of_dependency hi hx)) x hx hx'
  · exact hcons m hmS x hx (hpost.sub.subset hx')

theorem consistentWith_after_disable {fm : qSlicerAbstractModuleFactoryManager}
    {S S' : List String} {X : String} (hpost : DisablePost fm S S' X)
    (hcons : ConsistentWith fm S) (hi : InstancesRegistered fm)
    (hinst : moduleInstance fm X ≠ none) : ConsistentWith fm S' := by
  rw [consistentWith_iff] at hcons ⊢
  intro m hm x hx hx'
  have hdep : m ∈ dependentModules fm x :=
    (mem_dependentModules fm x m).mpr ⟨registered_of_dependency hi hx, hx⟩
  by_cases hxS : x ∈ S
  · exact hcons m (fun h => hm (hpost.sup m h)) x hx hxS
  · exact hm (hpost.closed x (Or.inr ⟨hx', hxS⟩) (fun _ => hinst) m hdep)

theorem reaches_not_mem_of_consistentWith {fm : qSlicerAbstractModuleFactoryManager}
    {S : List String} (hcons : ConsistentWith fm S) {X m : String} (hX : X ∉ S)
    (h : Reaches fm X m) : m ∉ S := by
  rw [consistentWith_iff] at hcons
  induction h with
  | refl => exact hX
  | tail _ hstep ih => exact hcons _ ih _ hstep

theorem reaches_mem_of_consistentWith {fm : qSlicerAbstractModuleFactoryManager}
    {S : List String} (hcons : ConsistentWith fm S) {X m : String} (hX : X ∈ S)
    (h : Reaches fm m X) : m ∈ S := by
  rw [consistentWith_iff] at hcons
  induction h using Relation.ReflTransGen.head_induction_on with
  | refl => exact hX
  | head hstep _ ih =>
    by_contra hm
    exact hcons _ hm _ hstep ih

/-! ## Claims about the cascade, unknown names, `modules`, `checkedModules` and `updateModule` -/

/-- C1 (as amended): on a view that is reconciled with a registry whose
instantiated modules are registered, a click that checks any entry, or that
unchecks the entry of an instantiated module, keeps the dependency invariant:
`onItemChanged` returns, the view is reconciled again, and every declared
dependency of a module outside the ignore set is outside the ignore set. -/
theorem toggle_preserves_dependency_invariant (d : qSlicerModulesListViewPrivate) (row : Nat)
    (item : QStandardItem) (c : CheckState) (fuel : Nat) (hr : Reconciled d)
    (hi : InstancesRegistered d.FactoryManager)
    (hcons : Consistent d.FactoryManager) (hget : d.ModulesListModel[row]? = some item)
    (hinst : c = CheckState.Unchecked → moduleInstance d.FactoryManager item.userRole ≠ none)
    (hfuel : d.ModulesListModel.length < fuel) :
    ∃ d', onItemChanged fuel (clicked d row c) row = some d' ∧ Reconciled d' ∧
      Consistent d'.FactoryManager := by
  cases c with
  | Checked =>
    obtain ⟨S', σ', hrun, hpost⟩ := enable_request d row item fuel hr hget hfuel
    refine ⟨_, hrun, ?_, ?_⟩
    · exact reconciled_viewState _ _ S' σ' hr.covered
        (fun m hm => hr.ignore_covered m (hpost.sub.subset hm)) hpost.settled
    · show ConsistentWith d.FactoryManager S'
      exact consistentWith_after_enable hpost hi hcons
  | Unchecked =>
    obtain ⟨S', hrun, hpost⟩ := disable_request d row item fuel hr hget hfuel
    refine ⟨_, hrun, ?_, ?_⟩
    · exact reconciled_viewState _ _ S' _ hr.covered (grown_covered hr hget hpost)
        (settled_mono (hr.settled _) hpost.sup)
    · show ConsistentWith d.FactoryManager S'
      exact consistentWith_after_disable hpost hcons hi (hinst rfl)

/-- Witness of C1: unchecking C in the chain A, B, C with everything enabled. -/
theorem toggle_preserves_dependency_invariant_witness :
    Consistent (chainRegistry []) ∧
      ∃ d', onItemChanged 4 (clicked (viewOf (chainRegistry [])) 2 CheckState.Unchecked) 2
          = some d' ∧ Reconciled d' ∧ Consistent d'.FactoryManager :=
  ⟨by decide,
    toggle_preserves_dependency_invariant (viewOf (chainRegistry [])) 2
      (refreshed (chainRegistry []) (newItem "C")) CheckState.Unchecked 4 (by decide) (by decide)
      (by decide) (by decide) (fun _ => by decide) (by decide)⟩

/-- Counterexample to C1 as stated: the view is reconciled and the invariant holds;
the entry of X, a registered module without instance, is unchecked; the guard
`if (module)` skips the loop over the dependents, and afterwards A is outside
the ignore set while its dependency X is in it. -/
theorem dependency_invariant_counterexample :
    Reconciled (viewOf strandedRegistry) ∧
      InstancesRegistered strandedRegistry ∧ Consistent strandedRegistry ∧
      ∃ d', onItemChanged 4 (clicked (viewOf strandedRegistry) 1 CheckState.Unchecked) 1
          = some d' ∧ d'.FactoryManager.modulesToIgnore = ["X"] ∧
        "X" ∈ dependenciesOf d'.FactoryManager "A" ∧ ¬ Consistent d'.FactoryManager :=
  ⟨by decide, by decide, by decide, _, rfl, by decide, by decide, by decide⟩

/-- C2 (as amended): on a reconciled view whose registry satisfies the dependency
invariant and whose instantiated modules are registered, an enable request for
the module of any entry returns, and afterwards every module in the transitive
closure of the dependency relation from that module, the module included, is
outside the ignore set. -/
theorem enable_request_enables_closure (d : qSlicerModulesListViewPrivate) (row : Nat)
    (item : QStandardItem) (fuel : Nat) (hr : Reconciled d)
    (hi : InstancesRegistered d.FactoryManager)
    (hcons : Consistent d.FactoryManager) (hget : d.ModulesListModel[row]? = some item)
    (hfuel : d.ModulesListModel.length < fuel) :
    ∃ d', onItemChanged fuel (clicked d row CheckState.Checked) row = some d' ∧
      ∀ m, Reaches d.FactoryManager item.userRole m → m ∉ d'.FactoryManager.modulesToIgnore := by
  obtain ⟨S', σ', hrun, hpost⟩ := enable_request d row item fuel hr hget hfuel
  refine ⟨_, hrun, ?_⟩
  intro m hm
  exact reaches_not_mem_of_consistentWith (consistentWith_after_enable hpost hi hcons)
    hpost.self hm

/-- Witness of C2: with A depends on B, B depends on C and all three disabled,
enabling A leaves the closure of A enabled; the ignore set ends empty. -/
theorem enable_request_enables_closure_witness :
    (∃ d', onItemChanged 4
        (clicked (viewOf (chainRegistry ["A", "B", "C"])) 0 CheckState.Checked) 0 = some d' ∧
      ∀ m, Reaches (chainRegistry ["A", "B", "C"]) "A" m → m ∉ d'.FactoryManager.modulesToIgnore) ∧
    (onItemChanged 4
        (clicked (viewOf (chainRegistry ["A", "B", "C"])) 0 CheckState.Checked) 0).map
      (fun d => d.FactoryManager.modulesToIgnore) = some [] :=
  ⟨enable_request_enables_closure (viewOf (chainRegistry ["A", "B", "C"])) 0
      (refreshed (chainRegistry ["A", "B", "C"]) (newItem "A")) 4 (by decide) (by decide)
      (by decide) (by decide) (by decide), by decide⟩

/-- Counterexample to C2 as stated: B is enabled while its dependency C is disabled;
enabling A removes A from the ignore set and finds B enabled, so C, which is in
the closure of A, stays in the ignore set. -/
theorem enable_closure_counterexample :
    Reconciled (viewOf (chainRegistry ["A", "C"])) ∧
      InstancesRegistered (chainRegistry ["A", "C"]) ∧
      ¬ Consistent (chainRegistry ["A", "C"]) ∧
      Reaches (chainRegistry ["A", "C"]) "A" "C" ∧
      ∃ d', onItemChanged 4 (clicked (viewOf (chainRegistry ["A", "C"])) 0 CheckState.Checked) 0
          = some d' ∧ "C" ∈ d'.FactoryManager.modulesToIgnore :=
  ⟨by decide, by decide, by decide,
    Relation.ReflTransGen.tail (Relation.ReflTransGen.single
      (show "B" ∈ dependenciesOf (chainRegistry ["A", "C"]) "A" by decide))
      (show "C" ∈ dependenciesOf (chainRegistry ["A", "C"]) "B" by decide),
    _, rfl, by decide⟩

/-- C3 (as amended): on a reconciled view whose registry satisfies the dependency
invariant and whose instantiated modules are registered, a disable request for
an instantiated module returns, and afterwards that module and every module
that directly or transitively depends on it are in the ignore set. -/
theorem disable_request_disables_dependents (d : qSlicerModulesListViewPrivate) (row : Nat)
    (item : QStandardItem) (fuel : Nat) (hr : Reconciled d)
    (hi : InstancesRegistered d.FactoryManager) (hcons : Consistent d.FactoryManager)
    (hget : d.ModulesListModel[row]? = some item)
    (hinst : moduleInstance d.FactoryManager item.userRole ≠ none)
    (hfuel : d.ModulesListModel.length < fuel) :
    ∃ d', onItemChanged fuel (clicked d row CheckState.Unchecked) row = some d' ∧
      ∀ m, Reaches d.FactoryManager m item.userRole → m ∈ d'.FactoryManager.modulesToIgnore := by
  obtain ⟨S', hrun, hpost⟩ := disable_request d row item fuel hr hget hfuel
  refine ⟨_, hrun, ?_⟩
  intro m hm
  exact reaches_mem_of_consistentWith (consistentWith_after_disable hpost hcons hi hinst)
    hpost.self hm

/-- Witness of C3: with A depends on B, B depends on C and all three enabled,
disabling C leaves A, B and C in the ignore set. -/
theorem disable_request_disables_dependents_witness :
    (∃ d', onItemChanged 4 (clicked (viewOf (chainRegistry [])) 2 CheckState.Unchecked) 2
        = some d' ∧
      ∀ m, Reaches (chainRegistry []) m "C" → m ∈ d'.FactoryManager.modulesToIgnore) ∧
    (onItemChanged 4 (clicked (viewOf (chainRegistry [])) 2 CheckState.Unchecked) 2).map
      (fun d => d.FactoryManager.modulesToIgnore) = some ["C", "B", "A"] :=
  ⟨disable_request_disables_dependents (viewOf (chainRegistry [])) 2
      (refreshed (chainRegistry []) (newItem "C")) 4 (by decide) (by decide) (by decide)
      (by decide) (by decide) (by decide), by decide⟩

/-- Counterexample to C3 as stated, at two inputs.  First, B is disabled while A,
which depends on B, is enabled: disabling C finds its dependent B in the ignore
set and A stays enabled.  Second, X is registered without instance: disabling
X skips the loop over its dependents and A, which depends on X, stays
enabled. -/
theorem disable_closure_counterexample :
    (Reconciled (viewOf (chainRegistry ["B"])) ∧ InstancesRegistered (chainRegistry ["B"]) ∧
      ¬ Consistent (chainRegistry ["B"]) ∧ Reaches (chainRegistry ["B"]) "A" "C" ∧
      ∃ d', onItemChanged 4 (clicked (viewOf (chainRegistry ["B"])) 2 CheckState.Unchecked) 2
          = some d' ∧ "A" ∉ d'.FactoryManager.modulesToIgnore) ∧
    (Reconciled (viewOf strandedRegistry) ∧ InstancesRegistered strandedRegistry ∧
      Consistent strandedRegistry ∧ moduleInstance strandedRegistry "X" = none ∧
      Reaches strandedRegistry "A" "X" ∧
      ∃ d', onItemChanged 4 (clicked (viewOf strandedRegistry) 1 CheckState.Unchecked) 1
          = some d' ∧ "A" ∉ d'.FactoryManager.modulesToIgnore) :=
  ⟨⟨by decide, by decide, by decide,
      Relation.ReflTransGen.tail (Relation.ReflTransGen.single
        (show "B" ∈ dependenciesOf (chainRegistry ["B"]) "A" by decide))
        (show "C" ∈ dependenciesOf (chainRegistry ["B"]) "B" by decide),
      _, rfl, by decide⟩,
    ⟨by decide, by decide, by decide, by decide,
      Relation.ReflTransGen.single (show "X" ∈ dependenciesOf strandedRegistry "A" by decide),
      _, rfl, by decide⟩⟩

/-- C4 (as amended): on a reconciled view, an enable request for the module of an
entry returns, puts no module into the ignore set, and changes the membership in
the ignore set of no module outside the transitive closure of the dependency
relation from the requested module: the request cascades to dependencies only,
never to dependents. -/
theorem enable_request_frame (d : qSlicerModulesListViewPrivate) (row : Nat)
    (item : QStandardItem) (fuel : Nat) (hr : Reconciled d)
    (hget : d.ModulesListModel[row]? = some item) (hfuel : d.ModulesListModel.length < fuel) :
    ∃ d', onItemChanged fuel (clicked d row CheckState.Checked) row = some d' ∧
      (∀ m ∈ d'.FactoryManager.modulesToIgnore, m ∈ d.FactoryManager.modulesToIgnore) ∧
      ∀ m, ¬ Reaches d.FactoryManager item.userRole m →
        (m ∈ d'.FactoryManager.modulesToIgnore ↔ m ∈ d.FactoryManager.modulesToIgnore) := by
  obtain ⟨S', σ', hrun, hpost⟩ := enable_request d row item fuel hr hget hfuel
  refine ⟨_, hrun, fun m hm => hpost.sub.subset hm, ?_⟩
  intro m hm
  constructor
  · exact fun h => hpost.sub.subset h
  · intro h
    by_contra h'
    exact hm (hpost.frame m h h')

/-- Witness of C4: Core, Filter (depends on Core) and Viewer (depends on Filter)
are all disabled; enabling Filter leaves exactly Viewer in the ignore set. -/
theorem enable_request_frame_witness :
    (∃ d', onItemChanged 4
        (clicked (viewOf (scenarioRegistry ["Core", "Filter", "Viewer"])) 1 CheckState.Checked) 1
          = some d' ∧
      (∀ m ∈ d'.FactoryManager.modulesToIgnore, m ∈ ["Core", "Filter", "Viewer"]) ∧
      ∀ m, ¬ Reaches (scenarioRegistry ["Core", "Filter", "Viewer"]) "Filter" m →
        (m ∈ d'.FactoryManager.modulesToIgnore ↔ m ∈ ["Core", "Filter", "Viewer"])) ∧
    (onItemChanged 4
        (clicked (viewOf (scenarioRegistry ["Core", "Filter", "Viewer"])) 1 CheckState.Checked)
        1).map (fun d => d.FactoryManager.modulesToIgnore) = some ["Viewer"] :=
  ⟨enable_request_frame (viewOf (scenarioRegistry ["Core", "Filter", "Viewer"])) 1
      (refreshed (scenarioRegistry ["Core", "Filter", "Viewer"]) (newItem "Filter")) 4
      (by decide) (by decide) (by decide), by decide⟩

/-- Counterexample to C4 as stated: A depends on B, X has no dependency, B and X are
to ignore and A is enabled, and the entry of B is shown checked.  The enable
request for X takes X out of the ignore set; the notification refreshes the entry
of B, which unchecks it, and the disable request that this sets off puts the
dependent A of B into the ignore set.  A is not in the dependency closure of X and
was enabled before the request. -/
theorem enable_frame_counterexample :
    ¬ Reconciled staleBView ∧
      "A" ∉ staleBView.FactoryManager.modulesToIgnore ∧
      ¬ Reaches staleBView.FactoryManager "X" "A" ∧
      ∃ d', onItemChanged 8 (clicked staleBView 2 CheckState.Checked) 2 = some d' ∧
        d'.ModulesListModel.map (fun i => (i.userRole, i.checkState))
          = [("A", CheckState.Unchecked), ("B", CheckState.Unchecked),
             ("X", CheckState.Checked)] ∧
        d'.FactoryManager.modulesToIgnore = ["B", "A"] ∧
        "A" ∈ d'.FactoryManager.modulesToIgnore := by
  refine ⟨by decide, by decide, ?_, _, rfl, by decide, by decide, by decide⟩
  intro h
  rcases Relation.ReflTransGen.cases_head h with h | ⟨c, hc, _⟩
  · exact absurd h (by decide)
  · have hd : dependenciesOf staleBView.FactoryManager "X" = [] := by decide
    simp only [DependsOn, hd] at hc
    exact absurd hc (List.not_mem_nil c)

theorem clicked_get (d : qSlicerModulesListViewPrivate) (row : Nat) (item : QStandardItem)
    (c : CheckState) (hget : d.ModulesListModel[row]? = some item) :
    (clicked d row c).ModulesListModel[row]? = some { item with checkState := c } := by
  simp only [clicked, hget]
  rw [List.getElem?_set_self (List.getElem?_eq_some_iff.mp hget).1]

theorem clicked_FactoryManager (d : qSlicerModulesListViewPrivate) (row : Nat) (c : CheckState) :
    (clicked d row c).FactoryManager = d.FactoryManager := by
  unfold clicked
  split <;> rfl

/-- C5 (as amended): for an entry whose name the registry does not know (not
registered, not in the ignore set, not ignored, no instance), `onItemChanged`
reports no failure.  With the entry checked it returns and leaves the state as it
was; with the entry unchecked, on a reconciled view, it returns and the ignore set
is the old one with the name appended. -/
theorem unknown_module_request (d : qSlicerModulesListViewPrivate) (row : Nat)
    (item : QStandardItem) (fuel : Nat) (hr : Reconciled d)
    (hget : d.ModulesListModel[row]? = some item)
    (hunknown : item.userRole ∉ knownNames d.FactoryManager)
    (hinst : moduleInstance d.FactoryManager item.userRole = none) (hfuel : 0 < fuel) :
    onItemChanged fuel (clicked d row CheckState.Checked) row
        = some (clicked d row CheckState.Checked) ∧
      ∃ d', onItemChanged fuel (clicked d row CheckState.Unchecked) row = some d' ∧
        d'.FactoryManager.modulesToIgnore
          = d.FactoryManager.modulesToIgnore ++ [item.userRole] := by
  obtain ⟨k, rfl⟩ : ∃ k, fuel = k + 1 := ⟨fuel - 1, by omega⟩
  have hX : item.userRole ∉ d.FactoryManager.modulesToIgnore := by
    intro h
    apply hunknown
    simp only [knownNames, List.mem_append]
    exact Or.inl (Or.inr h)
  constructor
  · simp only [onItemChanged, onItemChangedBody, clicked_get d row item _ hget, if_true,
      removeModuleToIgnore, setModulesToIgnore, clicked_FactoryManager, hinst]
    rw [filter_ne_of_not_mem _ _ hX]
    simp
  · rw [clicked_eq_toggledState hr row item _ hget]
    refine ⟨viewState d.ModulesListModel d.FactoryManager
      (ignoreWith d.FactoryManager.modulesToIgnore item.userRole)
      (Function.update (shownIn d.ModulesListModel) item.userRole CheckState.Checked), ?_, ?_⟩
    · have hinst' : moduleInstance (toggledState d.ModulesListModel d.FactoryManager
          d.FactoryManager.modulesToIgnore
          (Function.update (shownIn d.ModulesListModel) item.userRole CheckState.Checked)
          row item CheckState.Unchecked).FactoryManager
          item.userRole = none := hinst
      simp only [onItemChanged, onItemChangedBody,
        toggledState_get d.ModulesListModel d.FactoryManager _ _ row item _ hget,
        entryOf_userRole, hinst']
      rw [if_neg (by decide), addModuleToIgnore_toggled (onItemChanged k) d.ModulesListModel
        d.FactoryManager _ _ row item hr.covered hget hr.ignore_covered (hr.settled _)]
      rfl
    · show ignoreWith d.FactoryManager.modulesToIgnore item.userRole = _
      simp [ignoreWith, hX]

/-- Witness of C5: the entry `ghost` of `ghostView`. -/
theorem unknown_module_request_witness :
    onItemChanged 1 (clicked ghostView 3 CheckState.Checked) 3
        = some (clicked ghostView 3 CheckState.Checked) ∧
      ∃ d', onItemChanged 1 (clicked ghostView 3 CheckState.Unchecked) 3 = some d' ∧
        d'.FactoryManager.modulesToIgnore = [] ++ ["ghost"] :=
  unknown_module_request ghostView 3 (refreshed (chainRegistry []) (newItem "ghost")) 1
    (by decide) (by decide) (by decide) (by decide) (by decide)

/-- Counterexample to C5 as stated: `ghost` is not registered, not ignored and has no
instance; the disable request for it returns a state, and the ignore set, empty
before, holds `ghost` afterwards. -/
theorem unknown_module_counterexample :
    "ghost" ∉ knownNames ghostView.FactoryManager ∧
      moduleInstance ghostView.FactoryManager "ghost" = none ∧
      ghostView.FactoryManager.modulesToIgnore = [] ∧
      ∃ d', onItemChanged 4 (clicked ghostView 3 CheckState.Unchecked) 3 = some d' ∧
        d'.FactoryManager.modulesToIgnore = ["ghost"] :=
  ⟨by decide, by decide, rfl, _, rfl, by decide⟩

/-- C6: `modules()` contains a name if and only if the name is registered, to be
ignored or ignored; it contains no name twice; it is in strictly ascending
lexicographic order; and without factory manager it is empty. -/
theorem modules_known_names (fm : qSlicerAbstractModuleFactoryManager) :
    (∀ n, n ∈ modules (some fm) ↔
      (n ∈ fm.registeredModuleNames ∨ n ∈ fm.modulesToIgnore ∨ n ∈ fm.ignoredModuleNames)) ∧
    (modules (some fm)).Nodup ∧
    (modules (some fm)).Pairwise (fun a b => qStringLt a b = true) ∧
    modules none = [] := by
  have hnodup : (modules (some fm)).Nodup := by
    simp only [modules]
    exact (sort_perm _).nodup_iff.mpr (nodup_removeDuplicatesFrom [] _)
  refine ⟨?_, hnodup, ?_, rfl⟩
  · intro n
    rw [mem_modules]
    simp [knownNames, or_assoc]
  · have hsorted : (modules (some fm)).Pairwise (fun a b => qStringLt b a = false) := by
      simp only [modules]
      exact sort_sorted _
    refine (hsorted.and hnodup).imp ?_
    rintro a b ⟨hle, hne⟩
    cases hab : qStringLt a b with
    | true => rfl
    | false => exact absurd (qStringLt_total hab hle) hne

/-- C7 (failing input): the module VolumeRendering has the title "Volume Rendering".
The view is reconciled, every known module has an entry, and after
`setCheckedModules(modules())` the list `checkedModules()` holds the title, which
`indexListToModules` reads from `Qt::DisplayRole`, while `modules()` holds the
name. -/
theorem check_all_round_trip_returns_titles :
    Reconciled (viewOf titledRegistry) ∧
      modules (some titledRegistry) = ["VolumeRendering"] ∧
      (setCheckedModules (onItemChanged 4) (viewOf titledRegistry)
          (modules (some titledRegistry))).map checkedModules = some ["Volume Rendering"] := by
  decide

/-- C9 (failing input): the list holds one entry, for DataProbe.  `moduleItem` looks
Data up with the default match flags, finds the entry of DataProbe because its
name starts with Data, and `updateModule("Data")` refreshes that entry: the list
is as before and holds no entry whose name is Data. -/
theorem updateModule_refreshes_entry_of_longer_name :
    moduleItem probeView.ModulesListModel "Data" = some 0 ∧
      updateModule (onItemChanged 4) probeView "Data" = some probeView ∧
      probeView.ModulesListModel.map QStandardItem.userRole = ["DataProbe"] := by
  decide

/-! ## Views given by their entries -/

/-- A view whose entries have the brush, text and tool tip that `updateItem` writes
and the check states given by `σ` is the view state of `σ`. -/
theorem entries_eq_viewState (M : List QStandardItem) (fm : qSlicerAbstractModuleFactoryManager)
    (S : List String) (σ : String → CheckState)
    (hdisp : ∀ it ∈ M, { refreshed fm it with checkState := it.checkState } = it)
    (hσ : ∀ it ∈ M, shownState S σ it.userRole = it.checkState) :
    M = (viewState M fm S σ).ModulesListModel := by
  apply model_eq_viewState _ _ _ _ _ rfl
  intro r it0 hg
  rw [hg]
  congr 1
  have h1 := hdisp it0 (List.getElem?_mem hg)
  conv_lhs => rw [← h1]
  simp only [entryOf, hσ it0 (List.getElem?_mem hg)]

/-! ## Claim about the bulk changes -/

theorem checkState_ne_checked {c : CheckState} :
    c ≠ CheckState.Checked ↔ c = CheckState.Unchecked := by
  cases c <;> simp

theorem target_reaches {fm : qSlicerAbstractModuleFactoryManager} {names : List String}
    {cs : CheckState}
    (hclosed : ∀ m, targetState names cs m = CheckState.Checked →
      ∀ x ∈ dependenciesOf fm m, targetState names cs x = CheckState.Checked)
    {a b : String} (h : Reaches fm a b) (ha : targetState names cs a = CheckState.Checked) :
    targetState names cs b = CheckState.Checked := by
  induction h with
  | refl => exact ha
  | tail _ hstep ih => exact hclosed _ ih _ hstep

/-- One turn of the loop of `setModulesCheckState` on a view state, for a list of
names whose targets are closed under the dependency relation: the entry of the name
gets its target, and every entry either keeps its check state or gets its
target. -/
theorem setModulesCheckState_turn (M : List QStandardItem)
    (fm : qSlicerAbstractModuleFactoryManager) (hc : Covered M fm) (names : List String)
    (cs : CheckState) (fuel : Nat) (hfuel : M.length < fuel)
    (hclosed : ∀ m, targetState names cs m = CheckState.Checked →
      ∀ x ∈ dependenciesOf fm m, targetState names cs x = CheckState.Checked)
    (S : List String) (σ : String → CheckState) (n : String)
    (hn : n ∈ M.map QStandardItem.userRole)
    (hS : ∀ m ∈ S, m ∈ M.map QStandardItem.userRole) (hs : Settled fm S σ) :
    ∃ r S1 σ1, moduleItem (viewState M fm S σ).ModulesListModel n = some r ∧
      setItemData (onItemChanged fuel) (viewState M fm S σ) r
        (fun i => { i with checkState := targetState names cs n })
        = some (viewState M fm S1 σ1) ∧
      (∀ m ∈ S1, m ∈ M.map QStandardItem.userRole) ∧ Settled fm S1 σ1 ∧
      shownState S1 σ1 n = targetState names cs n ∧
      ∀ m, shownState S1 σ1 m = shownState S σ m ∨
        shownState S1 σ1 m = targetState names cs m := by
  obtain ⟨r, it0, hfind0, hg0, hname0⟩ := hc.addressable.find hn
  have hfind : moduleItem (viewState M fm S σ).ModulesListModel n = some r := by
    rw [moduleItem_congr _ M n (viewState_names M fm S σ)]; exact hfind0
  have hg := viewState_get M fm S σ r it0 hg0
  subst hname0
  by_cases hsame : targetState names cs it0.userRole = shownState S σ it0.userRole
  · refine ⟨r, S, σ, hfind, ?_, hS, hs, hsame.symm, fun m => Or.inl rfl⟩
    apply setItemData_same _ _ r _ _ hg
    rw [hsame]
    rfl
  · have hchanged : setItemData (onItemChanged fuel) (viewState M fm S σ) r
        (fun i => { i with checkState := targetState names cs it0.userRole })
        = onItemChanged fuel
            (toggledState M fm S σ r it0 (targetState names cs it0.userRole)) r := by
      rw [setItemData_changed _ _ r _ _ hg]
      · rfl
      · intro hEq
        exact hsame (congrArg QStandardItem.checkState hEq)
    cases htarget : targetState names cs it0.userRole with
    | Checked =>
      rw [htarget] at hchanged
      obtain ⟨S1, σ1, hrun, hpost⟩ := enable_request_spec M fm hc S σ r it0 hg0 hS hs fuel hfuel
      refine ⟨r, S1, σ1, hfind, ?_, fun m hm => hS m (hpost.sub.subset hm), hpost.settled, ?_, ?_⟩
      · rw [hchanged, hrun]
      · rw [shownState_of_not_mem _ hpost.self, hpost.checked]
      · intro m
        by_cases hm1 : m ∈ S1
        · left
          rw [shownState_of_mem _ hm1, shownState_of_mem _ (hpost.sub.subset hm1)]
        · rw [shownState_of_not_mem _ hm1]
          by_cases hmS : m ∈ S
          · rw [shownState_of_mem _ hmS]
            rcases cases_checkState (σ1 m) with h | h
            · right
              rw [h, target_reaches hclosed (hpost.frame m hmS hm1) htarget]
            · exact Or.inl h
          · rw [shownState_of_not_mem _ hmS]
            rcases cases_checkState (σ m) with h | h
            · left
              rw [h, hpost.keep m hmS h]
            · by_cases hmx : m = it0.userRole
              · right
                rw [hmx, hpost.checked, htarget]
              · left
                apply hpost.still m hmS _ hmx
                intro hl
                rw [hs m hl hmS] at h
                cases h
    | Unchecked =>
      rw [htarget] at hchanged
      obtain ⟨S1, hrun, hpost⟩ := disable_request_spec M fm hc S σ r it0 hg0 hS hs fuel hfuel
      refine ⟨r, S1, σ, hfind, ?_, ?_, settled_mono hs hpost.sup, ?_, ?_⟩
      · rw [hchanged, hrun]
      · intro m hm
        rcases hpost.grown m hm with h | h | h
        · exact hS m h
        · rw [h]; exact hn
        · exact hc.known m (Or.inl h)
      · rw [shownState_of_mem _ hpost.self]
      · intro m
        by_cases hm1 : m ∈ S1
        · rw [shownState_of_mem _ hm1]
          by_cases hmS : m ∈ S
          · left
            rw [shownState_of_mem _ hmS]
          · right
            have hreach := hpost.frame m hm1 hmS
            symm
            rw [← checkState_ne_checked]
            intro hmc
            have := target_reaches hclosed hreach hmc
            rw [htarget] at this
            cases this
        · left
          rw [shownState_of_not_mem _ hm1,
            shownState_of_not_mem _ (fun h => hm1 (hpost.sup m h))]

theorem setModulesCheckStateOf_spec (M : List QStandardItem)
    (fm : qSlicerAbstractModuleFactoryManager) (hc : Covered M fm) (names : List String)
    (cs : CheckState) (fuel : Nat) (hfuel : M.length < fuel)
    (hclosed : ∀ m, targetState names cs m = CheckState.Checked →
      ∀ x ∈ dependenciesOf fm m, targetState names cs x = CheckState.Checked)
    (l : List String) :
    ∀ (S : List String) (σ : String → CheckState),
      (∀ n ∈ l, n ∈ M.map QStandardItem.userRole) →
      (∀ m ∈ S, m ∈ M.map QStandardItem.userRole) → Settled fm S σ →
      ∃ S' σ', setModulesCheckStateOf (onItemChanged fuel) names cs (viewState M fm S σ) l
          = some (viewState M fm S' σ') ∧
        (∀ m ∈ S', m ∈ M.map QStandardItem.userRole) ∧ Settled fm S' σ' ∧
        (∀ n ∈ l, shownState S' σ' n = targetState names cs n) ∧
        ∀ m, shownState S' σ' m = shownState S σ m ∨
          shownState S' σ' m = targetState names cs m := by
  induction l with
  | nil =>
    intro S σ _ hS hs
    exact ⟨S, σ, rfl, hS, hs, by simp, fun m => Or.inl rfl⟩
  | cons n rest ih =>
    intro S σ hl hS hs
    obtain ⟨r, S1, σ1, hfind, hrun, hS1, hs1, hn1, htoward1⟩ := setModulesCheckState_turn M fm hc
      names cs fuel hfuel hclosed S σ n (hl n (List.mem_cons_self _ _)) hS hs
    obtain ⟨S', σ', hrun', hS', hs', hrest, htoward⟩ := ih S1 σ1
      (fun m hm => hl m (List.mem_cons_of_mem _ hm)) hS1 hs1
    refine ⟨S', σ', ?_, hS', hs', ?_, ?_⟩
    · simp only [setModulesCheckStateOf, hfind]
      have hrun2 : setItemData (onItemChanged fuel) (viewState M fm S σ) r
          (fun i => { i with checkState :=
            if n ∈ names then cs
            else if cs = CheckState.Checked then CheckState.Unchecked
            else CheckState.Checked }) = some (viewState M fm S1 σ1) := hrun
      rw [hrun2]
      exact hrun'
    · intro m hm
      rcases List.mem_cons.mp hm with h | h
      · rw [h]
        rcases htoward n with h' | h'
        · rw [h', hn1]
        · exact h'
      · exact hrest m h
    · intro m
      rcases htoward m with h' | h'
      · rcases htoward1 m with h1 | h1
        · exact Or.inl (h'.trans h1)
        · exact Or.inr (h'.trans h1)
      · exact Or.inr h'

theorem Reconciled.eq_viewState {d : qSlicerModulesListViewPrivate} (h : Reconciled d) :
    d = viewState d.ModulesListModel d.FactoryManager d.FactoryManager.modulesToIgnore
      (shownIn d.ModulesListModel) := by
  have hm := entries_eq_viewState d.ModulesListModel d.FactoryManager d.FactoryManager.modulesToIgnore
    (shownIn d.ModulesListModel) (fun it hit => (h.upToDate it hit).1) (by
      intro it hit
      obtain ⟨row, hget⟩ := List.getElem?_of_mem hit
      by_cases hS : it.userRole ∈ d.FactoryManager.modulesToIgnore
      · rw [shownState_of_mem _ hS, (h.upToDate it hit).2 (by
          simp only [knownNames, List.mem_append]
          exact Or.inl (Or.inr hS))]
        simp [checkStateOf, hS]
      · rw [shownState_of_not_mem _ hS, shownIn_of_get h.addressable hget])
  cases d with
  | mk M fm =>
    simp only [viewState, withIgnore_self]
    simp only [viewState] at hm
    rw [← hm]

theorem Reconciled.settled_shownIn {d : qSlicerModulesListViewPrivate} (h : Reconciled d) :
    Settled d.FactoryManager d.FactoryManager.modulesToIgnore (shownIn d.ModulesListModel) := by
  intro n hl hn
  obtain ⟨it, hit, hname⟩ := List.mem_map.mp (h.covered.known n hl)
  obtain ⟨row, hget⟩ := List.getElem?_of_mem hit
  subst hname
  rw [shownIn_of_get h.addressable hget, (h.upToDate it hit).2 (by
    simp only [knownNames, List.mem_append]
    rcases hl with h | h
    · exact Or.inl (Or.inl h)
    · exact Or.inr h)]
  simp [checkStateOf, hn]

theorem setModulesCheckState_spec (d : qSlicerModulesListViewPrivate) (names : List String)
    (cs : CheckState) (fuel : Nat) (hr : Reconciled d)
    (hfuel : d.ModulesListModel.length < fuel)
    (hclosed : ∀ m, targetState names cs m = CheckState.Checked →
      ∀ x ∈ dependenciesOf d.FactoryManager m, targetState names cs x = CheckState.Checked) :
    ∃ d', setModulesCheckState (onItemChanged fuel) d names cs = some d' ∧ Reconciled d' ∧
      d'.ModulesListModel.map QStandardItem.userRole
        = d.ModulesListModel.map QStandardItem.userRole ∧
      ∀ item ∈ d'.ModulesListModel, item.userRole ∈ modules (some d.FactoryManager) →
        item.checkState = targetState names cs item.userRole := by
  have hknown : ∀ n ∈ modules (some d.FactoryManager),
      n ∈ d.ModulesListModel.map QStandardItem.userRole := by
    intro n hn
    rw [mem_modules] at hn
    exact hr.known n hn
  obtain ⟨S', σ', hrun, hS', hs', hall, _⟩ := setModulesCheckStateOf_spec d.ModulesListModel
    d.FactoryManager hr.covered names cs fuel hfuel hclosed (modules (some d.FactoryManager))
    d.FactoryManager.modulesToIgnore (shownIn d.ModulesListModel) hknown hr.ignore_covered
    hr.settled_shownIn
  refine ⟨viewState d.ModulesListModel d.FactoryManager S' σ', ?_, ?_, viewState_names _ _ _ _, ?_⟩
  · simp only [setModulesCheckState]
    conv_lhs => rw [hr.eq_viewState]
    exact hrun
  · exact reconciled_viewState _ _ S' σ' hr.covered hS' hs'
  · intro item hi hmem
    simp only [viewState, List.mem_map] at hi
    obtain ⟨it0, _, rfl⟩ := hi
    exact hall it0.userRole hmem

/-- C8 (as amended): on a reconciled view, for a list `names` that holds every
declared dependency of its members, `setCheckedModules(names)` returns, keeps the
entries, and leaves the entry of every known module checked if the module is in
`names` and unchecked if not; for a list `names` such that no module outside it
declares a dependency in it, `setUncheckedModules(names)` returns, keeps the
entries, and leaves the entry of every known module unchecked if the module is in
`names` and checked if not.  The changes are made in the order of `modules()`, each
through `onItemChanged`. -/
theorem bulk_check_state_by_membership (d : qSlicerModulesListViewPrivate)
    (names : List String) (fuel : Nat) (hr : Reconciled d)
    (hfuel : d.ModulesListModel.length < fuel) :
    ((∀ m ∈ names, ∀ x ∈ dependenciesOf d.FactoryManager m, x ∈ names) →
      ∃ d', setCheckedModules (onItemChanged fuel) d names = some d' ∧ Reconciled d' ∧
        d'.ModulesListModel.map QStandardItem.userRole
          = d.ModulesListModel.map QStandardItem.userRole ∧
        ∀ item ∈ d'.ModulesListModel, item.userRole ∈ modules (some d.FactoryManager) →
          (item.checkState = CheckState.Checked ↔ item.userRole ∈ names)) ∧
    ((∀ m, m ∉ names → ∀ x ∈ dependenciesOf d.FactoryManager m, x ∉ names) →
      ∃ d', setUncheckedModules (onItemChanged fuel) d names = some d' ∧ Reconciled d' ∧
        d'.ModulesListModel.map QStandardItem.userRole
          = d.ModulesListModel.map QStandardItem.userRole ∧
        ∀ item ∈ d'.ModulesListModel, item.userRole ∈ modules (some d.FactoryManager) →
          (item.checkState = CheckState.Unchecked ↔ item.userRole ∈ names)) := by
  constructor
  · intro hclosed
    obtain ⟨d', hrun, hrec, hnames, hstate⟩ := setModulesCheckState_spec d names
      CheckState.Checked fuel hr hfuel (by
        intro m hm x hx
        have hm' : m ∈ names := by
          by_contra h
          simp [targetState, h] at hm
        simp [targetState, hclosed m hm' x hx])
    refine ⟨d', hrun, hrec, hnames, ?_⟩
    intro item hi hmem
    rw [hstate item hi hmem]
    by_cases h : item.userRole ∈ names <;> simp [targetState, h]
  · intro hclosed
    obtain ⟨d', hrun, hrec, hnames, hstate⟩ := setModulesCheckState_spec d names
      CheckState.Unchecked fuel hr hfuel (by
        intro m hm x hx
        have hm' : m ∉ names := by
          intro h
          simp [targetState, h] at hm
        simp [targetState, hclosed m hm' x hx])
    refine ⟨d', hrun, hrec, hnames, ?_⟩
    intro item hi hmem
    rw [hstate item hi hmem]
    by_cases h : item.userRole ∈ names <;> simp [targetState, h]

/-- Witness of C8: in the chain A, B, C with everything enabled, the list B, C
holds every declared dependency of its members, and `setCheckedModules(["B", "C"])`
leaves B and C checked and A unchecked; no module outside the list A declares a
dependency in it, and `setUncheckedModules(["A"])` leaves A unchecked and B and C
checked. -/
theorem bulk_check_state_by_membership_witness :
    ((∀ m ∈ ["B", "C"], ∀ x ∈ dependenciesOf (chainRegistry []) m, x ∈ ["B", "C"]) ∧
      ∃ d', setCheckedModules (onItemChanged 4) (viewOf (chainRegistry [])) ["B", "C"]
          = some d' ∧ Reconciled d' ∧
        d'.ModulesListModel.map QStandardItem.userRole
          = (viewOf (chainRegistry [])).ModulesListModel.map QStandardItem.userRole ∧
        ∀ item ∈ d'.ModulesListModel, item.userRole ∈ modules (some (chainRegistry [])) →
          (item.checkState = CheckState.Checked ↔ item.userRole ∈ ["B", "C"])) ∧
    ((∀ m, m ∉ ["A"] → ∀ x ∈ dependenciesOf (chainRegistry []) m, x ∉ ["A"]) ∧
      ∃ d', setUncheckedModules (onItemChanged 4) (viewOf (chainRegistry [])) ["A"]
          = some d' ∧ Reconciled d' ∧
        d'.ModulesListModel.map QStandardItem.userRole
          = (viewOf (chainRegistry [])).ModulesListModel.map QStandardItem.userRole ∧
        ∀ item ∈ d'.ModulesListModel, item.userRole ∈ modules (some (chainRegistry [])) →
          (item.checkState = CheckState.Unchecked ↔ item.userRole ∈ ["A"])) ∧
    (setCheckedModules (onItemChanged 4) (viewOf (chainRegistry [])) ["B", "C"]).map
      (fun d => (d.ModulesListModel.map (fun i => (i.userRole, i.checkState)),
        d.FactoryManager.modulesToIgnore))
      = some ([("A", CheckState.Unchecked), ("B", CheckState.Checked),
          ("C", CheckState.Checked)], ["A"]) ∧
    (setUncheckedModules (onItemChanged 4) (viewOf (chainRegistry [])) ["A"]).map
      (fun d => (d.ModulesListModel.map (fun i => (i.userRole, i.checkState)),
        d.FactoryManager.modulesToIgnore))
      = some ([("A", CheckState.Unchecked), ("B", CheckState.Checked),
          ("C", CheckState.Checked)], ["A"]) :=
  ⟨⟨by decide,
      (bulk_check_state_by_membership (viewOf (chainRegistry [])) ["B", "C"] 4 (by decide)
        (by decide)).1 (by decide)⟩,
    ⟨(consistentWith_iff (chainRegistry []) ["A"]).mp (by decide),
      (bulk_check_state_by_membership (viewOf (chainRegistry [])) ["A"] 4 (by decide)
        (by decide)).2 ((consistentWith_iff (chainRegistry []) ["A"]).mp (by decide))⟩,
    by decide, by decide⟩

/-- Counterexample to C8 as stated: in the chain A, B, C with everything enabled,
`setCheckedModules(["A"])` unchecks B, which is not in the list; the cascade of
that change disables A, so the entry of A ends unchecked although A is in the
list. -/
theorem bulk_membership_counterexample :
    Reconciled (viewOf (chainRegistry [])) ∧
      "A" ∈ modules (some (chainRegistry [])) ∧
      ("B" ∈ dependenciesOf (chainRegistry []) "A" ∧ "B" ∉ ["A"]) ∧
      ∃ d', setCheckedModules (onItemChanged 4) (viewOf (chainRegistry [])) ["A"] = some d' ∧
        d'.ModulesListModel.map (fun i => (i.userRole, i.checkState))
          = [("A", CheckState.Unchecked), ("B", CheckState.Unchecked),
             ("C", CheckState.Unchecked)] ∧
        d'.FactoryManager.modulesToIgnore = ["B", "A", "C"] :=
  ⟨by decide, by decide, by decide, _, rfl, by decide, by decide⟩

/-! ## Views with entries that are not up to date -/

theorem DisableStretch.names {M : List QStandardItem} {fm : qSlicerAbstractModuleFactoryManager}
    {S S' : List String} {ε ε' : String → QStandardItem}
    (h : DisableStretch M fm S ε S' ε') (hS : ∀ m ∈ S, m ∈ M.map QStandardItem.userRole) :
    ∀ m ∈ S', m ∈ M.map QStandardItem.userRole :=
  fun m hm => (h.covered m hm).elim (hS m) id

end Slicer
